import Mathlib

/-!
# Parameter store and distribution keeper store (cosmos-sdk)

A shallow embedding of `x/params/store/store.go` and of the withdraw-address,
singleton (fee pool, previous proposer) and slash-fraction accessors of
`x/distribution/keeper/store.go`.

* Go byte slices are lists of bytes; a `nil` slice returned by a store read is `none`.
* A Go `panic` is the `Result.panic` outcome; it carries the context as it stands when
  the panic is raised, so that what was written before the panic stays visible.
* A pointer argument (`ptr interface{}`) is modelled by the value it refers to; an
  operation that writes through the pointer returns the new referent.
* The backing key-value store, the prefix view, the context and the codec are not part
  of the two source files; they are modelled from the interface the specification
  gives for them, or taken as parameters.
-/

namespace CosmosStore

/-! ## Bytes -/

/-- One byte. -/
abbrev Byte := Fin 256

/-- A non-nil Go byte slice. -/
abbrev Bytes := List Byte

/-- Lexicographic order on byte strings, `bytes.Compare(a, b) < 0`. -/
def bytesLt : Bytes → Bytes → Bool
  | [], [] => false
  | [], _ :: _ => true
  | _ :: _, [] => false
  | a :: as, b :: bs => if a < b then true else if b < a then false else bytesLt as bs

/-! ## The backing ordered key-value store -/

/-- Lookup in an association list: the value of the first entry with the given key. -/
def getEntries : List (Bytes × Bytes) → Bytes → Option Bytes
  | [], _ => none
  | (k, v) :: rest, key => if k = key then some v else getEntries rest key

/-- Ordered insertion into an association list, replacing the entry of an equal key. -/
def setEntries : List (Bytes × Bytes) → Bytes → Bytes → List (Bytes × Bytes)
  | [], key, value => [(key, value)]
  | (k, v) :: rest, key, value =>
    if k = key then (key, value) :: rest
    else if bytesLt key k then (key, value) :: (k, v) :: rest
    else (k, v) :: setEntries rest key value

/-- Modelled from the spec: the backing ordered KV store (`sdk.KVStore`), which the
source files consume but do not define. The spec gives its interface as
`get(key) -> bytes|absent`, `set(key, bytes)`, `delete(key)`, `has(key) -> bool`,
`iterate(startKeyInclusive, endKeyExclusive)` and `prefix(bytes)`. The store is the list
of its entries in ascending key order. Gas metering and nil arguments are outside of
this interface. -/
structure KVStore where
  entries : List (Bytes × Bytes)
deriving DecidableEq, Repr

/-- The store without entries. -/
def KVStore.empty : KVStore := ⟨[]⟩

/-- Modelled from the spec: `get(key) -> bytes|absent`; `none` is Go's `nil`. -/
def KVStore.Get (st : KVStore) (key : Bytes) : Option Bytes :=
  getEntries st.entries key

/-- Modelled from the spec: `has(key) -> bool`. -/
def KVStore.Has (st : KVStore) (key : Bytes) : Bool :=
  (st.Get key).isSome

/-- Modelled from the spec: `set(key, bytes)`. -/
def KVStore.Set (st : KVStore) (key value : Bytes) : KVStore :=
  ⟨setEntries st.entries key value⟩

/-- Modelled from the spec: `delete(key)`. -/
def KVStore.Delete (st : KVStore) (key : Bytes) : KVStore :=
  ⟨st.entries.filter (fun e => !decide (e.1 = key))⟩

/-- Modelled from the spec: `iterate(startKeyInclusive, endKeyExclusive)`, the entries
whose key lies in the half-open range, in the order of the store. -/
def KVStore.Iterator (st : KVStore) (start stop : Bytes) : List (Bytes × Bytes) :=
  st.entries.filter (fun e => !bytesLt e.1 start && bytesLt e.1 stop)

/-- Representation invariant of a store: keys strictly ascending. -/
def KVStore.WF (st : KVStore) : Prop :=
  st.entries.Pairwise (fun a b => bytesLt a.1 b.1 = true)

/-- Modelled from the spec: `prefix(bytes)`, a scoped view of a parent store in which
every key is implicitly prefixed. -/
structure PrefixStore where
  parent : KVStore
  pfx : Bytes
deriving DecidableEq, Repr

/-- The scoped view of `st` under the key prefix `pfx`. -/
def KVStore.Prefix (st : KVStore) (pfx : Bytes) : PrefixStore := ⟨st, pfx⟩

/-- Read through the view. -/
def PrefixStore.Get (p : PrefixStore) (key : Bytes) : Option Bytes :=
  p.parent.Get (p.pfx ++ key)

/-- Presence test through the view. -/
def PrefixStore.Has (p : PrefixStore) (key : Bytes) : Bool :=
  p.parent.Has (p.pfx ++ key)

/-- Write through the view; the result is the view over the updated parent. -/
def PrefixStore.Set (p : PrefixStore) (key value : Bytes) : PrefixStore :=
  ⟨p.parent.Set (p.pfx ++ key) value, p.pfx⟩

/-! ## Context -/

/-- A store key names one store of the multistore. -/
abbrev StoreKey := Nat

/-- Modelled from the spec: the transaction context (`sdk.Context`) gives access to
the durable stores and to the transient, block-scoped stores, each mounted under a
store key. The spec keeps the durable store and the transient store of a parameter
store apart, so the two families are separate. -/
structure Context where
  kvStores : StoreKey → KVStore
  transientStores : StoreKey → KVStore

/-- The transient store mounted at `key`, `ctx.TransientStore(key)`. -/
def Context.TransientStore (ctx : Context) (key : StoreKey) : CosmosStore.KVStore :=
  ctx.transientStores key

/-- The context after the durable store at `key` has become `st`. -/
def Context.putKVStore (ctx : Context) (key : StoreKey) (st : CosmosStore.KVStore) :
    Context :=
  { ctx with kvStores := fun k => if k = key then st else ctx.kvStores k }

/-- The context after the transient store at `key` has become `st`. -/
def Context.putTransientStore (ctx : Context) (key : StoreKey) (st : CosmosStore.KVStore) :
    Context :=
  { ctx with transientStores := fun k => if k = key then st else ctx.transientStores k }

/-- Modelled from the spec: at a block boundary the surrounding framework discards the
whole content of every transient store; durable stores are kept. -/
def Context.resetTransient (ctx : Context) : Context :=
  { ctx with transientStores := fun _ => CosmosStore.KVStore.empty }

/-- The durable store mounted at `key`, `ctx.KVStore(key)`. -/
def Context.KVStore (ctx : Context) (key : StoreKey) : CosmosStore.KVStore :=
  ctx.kvStores key

/-- Outcome of an operation: a normal return or a panic, each with the context reached. -/
inductive Result (α : Type) where
  | ok (value : α) (ctx : Context)
  | panic (err : String) (ctx : Context)

/-- The context in which the operation ended. -/
def Result.ctx {α : Type} : Result α → Context
  | .ok _ c => c
  | .panic _ c => c

/-- Whether the operation returned normally. -/
def Result.isOk {α : Type} : Result α → Bool
  | .ok _ _ => true
  | .panic _ _ => false

/-- The returned value, if the operation returned normally. -/
def Result.value? {α : Type} : Result α → Option α
  | .ok v _ => some v
  | .panic _ _ => none

/-! ## Codec -/

/-- The serialization codec (`codec.Codec`, an external library) as a pluggable
encode/decode pair over a universe `Val` of Go values with runtime types `Ty`.
`TypeOf` is `reflect.TypeOf`; the decoder receives the bytes read from the store, which
are `none` when the store returned `nil`, and the type to decode into. -/
structure Codec (Ty Val : Type) where
  TypeOf : Val → Ty
  MarshalJSON : Val → Except String Bytes
  UnmarshalJSON : Option Bytes → Ty → Except String Val

/-! ## x/params/store/store.go -/

/-- Individual parameter store for each keeper. -/
structure Store (Ty Val : Type) where
  cdc : Codec Ty Val
  key : StoreKey
  tkey : StoreKey
  space : Bytes

section ParamStore

variable {Ty Val : Type}

/-- The separator byte `'/'`. -/
def sep : Byte := 47

/-- Go `NewStore`. -/
def NewStore (cdc : Codec Ty Val) (key tkey : StoreKey) (space : Bytes) : Store Ty Val :=
  { cdc := cdc, key := key, tkey := tkey, space := space }

/-- Go `Store.kvStore`: `ctx.KVStore(s.key).Prefix(append(s.space, '/'))`. -/
def Store.kvStore (s : Store Ty Val) (ctx : Context) : PrefixStore :=
  (ctx.KVStore s.key).Prefix (s.space ++ [sep])

/-- Go `Store.transientStore`: `ctx.TransientStore(s.tkey).Prefix(append(s.space, '/'))`. -/
def Store.transientStore (s : Store Ty Val) (ctx : Context) : PrefixStore :=
  (ctx.TransientStore s.tkey).Prefix (s.space ++ [sep])

/-- Go `Store.Get`. `ptr` is the value the pointer refers to before the call; the
returned value is the referent afterwards. -/
def Store.Get (s : Store Ty Val) (ctx : Context) (key : Bytes) (ptr : Val) : Result Val :=
  let store := s.kvStore ctx
  let bz := store.Get key
  match s.cdc.UnmarshalJSON bz (s.cdc.TypeOf ptr) with
  | .error err => .panic err ctx
  | .ok v => .ok v ctx

/-- Go `Store.GetIfExists`. -/
def Store.GetIfExists (s : Store Ty Val) (ctx : Context) (key : Bytes) (ptr : Val) :
    Result Val :=
  let store := s.kvStore ctx
  let bz := store.Get key
  match bz with
  | none => .ok ptr ctx
  | some b =>
    match s.cdc.UnmarshalJSON (some b) (s.cdc.TypeOf ptr) with
    | .error err => .panic err ctx
    | .ok v => .ok v ctx

/-- Go `Store.GetRaw`. -/
def Store.GetRaw (s : Store Ty Val) (ctx : Context) (key : Bytes) : Result (Option Bytes) :=
  let store := s.kvStore ctx
  let res := store.Get key
  .ok res ctx

/-- Go `Store.Has`. -/
def Store.Has (s : Store Ty Val) (ctx : Context) (key : Bytes) : Result Bool :=
  let store := s.kvStore ctx
  .ok (store.Has key) ctx

/-- Go `Store.Modified`. -/
def Store.Modified (s : Store Ty Val) (ctx : Context) (key : Bytes) : Result Bool :=
  let tstore := s.transientStore ctx
  .ok (tstore.Has key) ctx

/-- The panic message of a failed type check in `Store.Set`. -/
def typeMismatch : String := "Type mismatch with stored param and provided param"

/-- Go `Store.Set`. -/
def Store.Set (s : Store Ty Val) (ctx : Context) (key : Bytes) (param : Val) : Result Unit :=
  let store := s.kvStore ctx
  let bz := store.Get key
  let mismatch : Bool :=
    match bz with
    | none => false
    | some b =>
      match s.cdc.UnmarshalJSON (some b) (s.cdc.TypeOf param) with
      | .error _ => true
      | .ok _ => false
  if mismatch then .panic typeMismatch ctx
  else
    match s.cdc.MarshalJSON param with
    | .error err => .panic err ctx
    | .ok bz =>
      let ctx1 := ctx.putKVStore s.key (store.Set key bz).parent
      let tstore := s.transientStore ctx1
      let ctx2 := ctx1.putTransientStore s.tkey (tstore.Set key []).parent
      .ok () ctx2

/-- Go `Store.SetRaw`. -/
def Store.SetRaw (s : Store Ty Val) (ctx : Context) (key : Bytes) (param : Bytes) :
    Result Unit :=
  let store := s.kvStore ctx
  let ctx1 := ctx.putKVStore s.key (store.Set key param).parent
  let tstore := s.transientStore ctx1
  let ctx2 := ctx1.putTransientStore s.tkey (tstore.Set key []).parent
  .ok () ctx2

/-- The context a successful `Store.Set` or a `Store.SetRaw` ends in: the bytes are
written under `space ‖ '/' ‖ key` in the durable store and the empty flag value under the
same key in the transient store. -/
def Store.written (s : Store Ty Val) (ctx : Context) (key bz : Bytes) : Context :=
  (ctx.putKVStore s.key ((ctx.KVStore s.key).Set (s.space ++ [sep] ++ key) bz)).putTransientStore
    s.tkey ((ctx.TransientStore s.tkey).Set (s.space ++ [sep] ++ key) [])

/-- Go `Store.Space`. -/
def Store.Space (s : Store Ty Val) : Bytes := s.space

/-- Wrapper of Store, provides immutable functions only. -/
structure ReadOnlyStore (Ty Val : Type) where
  s : Store Ty Val

/-- Go `ReadOnlyStore.Get`. -/
def ReadOnlyStore.Get (ros : ReadOnlyStore Ty Val) (ctx : Context) (key : Bytes)
    (ptr : Val) : Result Val :=
  ros.s.Get ctx key ptr

/-- Go `ReadOnlyStore.GetRaw`. -/
def ReadOnlyStore.GetRaw (ros : ReadOnlyStore Ty Val) (ctx : Context) (key : Bytes) :
    Result (Option Bytes) :=
  ros.s.GetRaw ctx key

/-- Go `ReadOnlyStore.Has`. -/
def ReadOnlyStore.Has (ros : ReadOnlyStore Ty Val) (ctx : Context) (key : Bytes) :
    Result Bool :=
  ros.s.Has ctx key

/-- Go `ReadOnlyStore.Modified`. -/
def ReadOnlyStore.Modified (ros : ReadOnlyStore Ty Val) (ctx : Context) (key : Bytes) :
    Result Bool :=
  ros.s.Modified ctx key

/-- Go `ReadOnlyStore.Space`. -/
def ReadOnlyStore.Space (ros : ReadOnlyStore Ty Val) : Bytes :=
  ros.s.Space

end ParamStore

/-- A sequence of calls made through the read-only view: one constructor for each
method `ReadOnlyStore` exposes. -/
inductive ROCall (Val : Type) where
  | Get (key : Bytes) (ptr : Val)
  | GetRaw (key : Bytes)
  | Has (key : Bytes)
  | Modified (key : Bytes)
  | Space

/-- What a call through the read-only view returns. -/
inductive ROReturn (Val : Type) where
  | value (v : Val)
  | raw (bz : Option Bytes)
  | flag (b : Bool)
  | space (name : Bytes)

/-- Carry a result over to another type of return value. -/
def Result.map {α β : Type} (f : α → β) : Result α → Result β
  | .ok v c => .ok (f v) c
  | .panic e c => .panic e c

section ReadOnlyCalls

variable {Ty Val : Type}

/-- One call through the read-only view, dispatched to the method of that name. -/
def ReadOnlyStore.call (ros : ReadOnlyStore Ty Val) (ctx : Context) :
    ROCall Val → Result (ROReturn Val)
  | .Get key ptr => (ros.Get ctx key ptr).map ROReturn.value
  | .GetRaw key => (ros.GetRaw ctx key).map ROReturn.raw
  | .Has key => (ros.Has ctx key).map ROReturn.flag
  | .Modified key => (ros.Modified ctx key).map ROReturn.flag
  | .Space => .ok (ROReturn.space ros.Space) ctx

/-- The context after a sequence of calls through the read-only view, each call
starting in the context the previous one ended in. A panic is taken to be recovered by
the caller, so the calls after it are made as well. -/
def ReadOnlyStore.run (ros : ReadOnlyStore Ty Val) : Context → List (ROCall Val) → Context
  | ctx, [] => ctx
  | ctx, c :: cs => ReadOnlyStore.run ros (ros.call ctx c).ctx cs

end ReadOnlyCalls

/-! ## x/distribution/keeper/store.go -/

/-- Modelled from the spec: the record-type tags of the binary key codec and the fixed
length of an address. The key codec (keys.go) is not among the source files and the
spec leaves the byte values open, so they are parameters. -/
structure KeyTags where
  DelegatorWithdrawAddrPrefix : Byte
  ValidatorSlashFractionPrefix : Byte
  AddrLen : Nat
deriving DecidableEq, Repr

/-- Big-endian bytes of the low `n` base-256 digits of `h`, most significant first. -/
def beBytes : Nat → Nat → Bytes
  | 0, _ => []
  | n + 1, h => ⟨h / 256 ^ n % 256, Nat.mod_lt _ (by decide)⟩ :: beBytes n h

/-- Go `binary.BigEndian.PutUint64`: the 8 big-endian bytes of a uint64. -/
def putUint64 (h : Nat) : Bytes := beBytes 8 h

/-- Go `binary.BigEndian.Uint64`: the number a big-endian byte string denotes. -/
def beValue (b : Bytes) : Nat := b.foldl (fun acc x => acc * 256 + x.val) 0

/-- Modelled from the spec: `encodeAddressKey(prefixByte, address)`, the one-byte
record-type tag followed by the address bytes. -/
def GetDelegatorWithdrawAddrKey (tags : KeyTags) (delAddr : Bytes) : Bytes :=
  tags.DelegatorWithdrawAddrPrefix :: delAddr

/-- Modelled from the spec: `encodeAddressHeightKey(prefixByte, address, height)`,
tag + address + big-endian 8-byte height. -/
def GetValidatorSlashFractionKey (tags : KeyTags) (v : Bytes) (height : Nat) : Bytes :=
  tags.ValidatorSlashFractionPrefix :: (v ++ putUint64 height)

/-- Modelled from the spec: `decodeHeightFromKey(key)`, the inverse of the height
suffix: the big-endian value of the 8 bytes that follow the tag and the address. The
spec fixes no result on keys the key codec did not produce. -/
def GetValidatorSlashFractionHeight (tags : KeyTags) (key : Bytes) : Nat :=
  beValue ((key.drop (1 + tags.AddrLen)).take 8)

/-- The keeper's codec at one record type: `MustMarshalBinaryLengthPrefixed` and
`MustUnmarshalBinaryLengthPrefixed`, whose panic is the `error` case. -/
structure BinaryCodec (α : Type) where
  MustMarshalBinaryLengthPrefixed : α → Except String Bytes
  MustUnmarshalBinaryLengthPrefixed : Option Bytes → Except String α

/-- The distribution keeper, as far as the accessors of store.go use it: its store key,
its codec at the slash-fraction record type, and the key tags of the package. -/
structure Keeper (SlashFraction : Type) where
  storeKey : StoreKey
  cdc : BinaryCodec SlashFraction
  tags : KeyTags

section KeeperStore

variable {SlashFraction : Type}

/-- Go `Keeper.GetDelegatorWithdrawAddr`: the withdraw address, defaulting to the
delegator address. -/
def Keeper.GetDelegatorWithdrawAddr (k : Keeper SlashFraction) (ctx : Context)
    (delAddr : Bytes) : Result Bytes :=
  let store := ctx.KVStore k.storeKey
  let b := store.Get (GetDelegatorWithdrawAddrKey k.tags delAddr)
  match b with
  | none => .ok delAddr ctx
  | some b => .ok b ctx

/-- Go `Keeper.SetDelegatorWithdrawAddr`. -/
def Keeper.SetDelegatorWithdrawAddr (k : Keeper SlashFraction) (ctx : Context)
    (delAddr withdrawAddr : Bytes) : Result Unit :=
  let store := ctx.KVStore k.storeKey
  .ok () (ctx.putKVStore k.storeKey
    (store.Set (GetDelegatorWithdrawAddrKey k.tags delAddr) withdrawAddr))

/-- Go `Keeper.RemoveDelegatorWithdrawAddr`; the second argument is not used. -/
def Keeper.RemoveDelegatorWithdrawAddr (k : Keeper SlashFraction) (ctx : Context)
    (delAddr _withdrawAddr : Bytes) : Result Unit :=
  let store := ctx.KVStore k.storeKey
  .ok () (ctx.putKVStore k.storeKey
    (store.Delete (GetDelegatorWithdrawAddrKey k.tags delAddr)))

/-- Go `Keeper.setValidatorSlashFraction`. -/
def Keeper.setValidatorSlashFraction (k : Keeper SlashFraction) (ctx : Context)
    (val : Bytes) (height : Nat) (fraction : SlashFraction) : Result Unit :=
  let store := ctx.KVStore k.storeKey
  match k.cdc.MustMarshalBinaryLengthPrefixed fraction with
  | .error err => .panic err ctx
  | .ok b =>
    .ok () (ctx.putKVStore k.storeKey
      (store.Set (GetValidatorSlashFractionKey k.tags val height) b))

/-- The loop of `IterateValidatorSlashFractions` over the entries the iterator yields.
The handler is a Go closure: it is given the state `σ` it has built up so far and
returns the new state together with its `stop` result. The state reached is returned
next to the outcome, also when decoding a record panics. -/
def Keeper.iterateLoop {σ : Type} (k : Keeper SlashFraction) (ctx : Context)
    (handler : σ → Nat → SlashFraction → σ × Bool) :
    List (Bytes × Bytes) → σ → σ × Result Unit
  | [], acc => (acc, .ok () ctx)
  | (key, value) :: rest, acc =>
    match k.cdc.MustUnmarshalBinaryLengthPrefixed (some value) with
    | .error err => (acc, .panic err ctx)
    | .ok fraction =>
      let height := GetValidatorSlashFractionHeight k.tags key
      let r := handler acc height fraction
      if r.2 then (r.1, .ok () ctx) else Keeper.iterateLoop k ctx handler rest r.1

/-- Go `Keeper.IterateValidatorSlashFractions`: iterate over slash fractions between
heights, inclusive. The heights are uint64, so `endingHeight+1` is taken modulo `2^64`. -/
def Keeper.IterateValidatorSlashFractions {σ : Type} (k : Keeper SlashFraction)
    (ctx : Context) (val : Bytes) (startingHeight endingHeight : Nat)
    (handler : σ → Nat → SlashFraction → σ × Bool) (init : σ) : σ × Result Unit :=
  let store := ctx.KVStore k.storeKey
  let iter := store.Iterator
    (GetValidatorSlashFractionKey k.tags val startingHeight)
    (GetValidatorSlashFractionKey k.tags val ((endingHeight + 1) % 2 ^ 64))
  k.iterateLoop ctx handler iter init

/-- What the loop of `IterateValidatorSlashFractions` hands to the handler for one
entry of the iterator: the height read from the key and the decoded record; `none` when
the value does not decode. -/
def Keeper.decodeEntry (k : Keeper SlashFraction) (e : Bytes × Bytes) :
    Option (Nat × SlashFraction) :=
  match k.cdc.MustUnmarshalBinaryLengthPrefixed (some e.2) with
  | .ok fraction => some (GetValidatorSlashFractionHeight k.tags e.1, fraction)
  | .error _ => none

/-- A store of the keeper is well keyed when every key that carries the slash-fraction
tag is the slash-fraction key of an address of the fixed length and a uint64 height, as
every key written by `setValidatorSlashFraction` is; the other record types carry
other tags. -/
def SlashKeysWF (tags : KeyTags) (st : KVStore) : Prop :=
  ∀ e ∈ st.entries, e.1.head? = some tags.ValidatorSlashFractionPrefix →
    ∃ v h, v.length = tags.AddrLen ∧ h < 2 ^ 64 ∧
      e.1 = GetValidatorSlashFractionKey tags v h

/-- A handler that never stops and records every invocation, in order. -/
def recordAll : List (Nat × SlashFraction) → Nat → SlashFraction →
    List (Nat × SlashFraction) × Bool :=
  fun acc height fraction => (acc ++ [(height, fraction)], false)

end KeeperStore

/-! ## Batch operations of the parameter store and sequences of writes -/

/-- What an operation returned or panicked with, without the context. -/
def Result.toExcept {α : Type} : Result α → Except String α
  | .ok v _ => .ok v
  | .panic err _ => .error err

section ParamStruct

variable {Ty Val : Type}

/-- Go `Store.GetStruct`: `Get` on every pair of `ps.KeyFieldPairs()`, in order. A pair
is the key and the value its field pointer refers to; the pairs are returned with the
fields as they stand after the call, also when a `Get` has panicked. -/
def Store.GetStruct (s : Store Ty Val) (ctx : Context) :
    List (Bytes × Val) → List (Bytes × Val) × Result Unit
  | [] => ([], .ok () ctx)
  | (key, field) :: rest =>
    match s.Get ctx key field with
    | .panic err c => ((key, field) :: rest, .panic err c)
    | .ok v c =>
      let r := Store.GetStruct s c rest
      ((key, v) :: r.1, r.2)

/-- Go `Store.SetStruct`: `Set` with the dereferenced field of every pair of
`ps.KeyFieldPairs()`, in order; a panic of `Set` ends the loop. -/
def Store.SetStruct (s : Store Ty Val) (ctx : Context) : List (Bytes × Val) → Result Unit
  | [] => .ok () ctx
  | (key, v) :: rest =>
    match s.Set ctx key v with
    | .panic err c => .panic err c
    | .ok _ c => Store.SetStruct s c rest

/-- The reading of `SetStruct` as a sequence of calls: `Set(key_1, v_1)`, ...,
`Set(key_n, v_n)` are made one after the other from the context the previous call ended
in, and no call is made once one has panicked. -/
def setInOrder (s : Store Ty Val) (ctx : Context) (pairs : List (Bytes × Val)) : Result Unit :=
  pairs.foldl
    (fun r p => match r with
      | .ok _ c => s.Set c p.1 p.2
      | .panic err c => .panic err c)
    (.ok () ctx)

/-- The context `c` is `ctx` itself or `ctx` after one write of the parameter store at
`key`: what a call of `Set` or `SetRaw` at `key` can end in. -/
def Store.WroteAt (s : Store Ty Val) (key : Bytes) (ctx c : Context) : Prop :=
  c = ctx ∨ ∃ bz, c = s.written ctx key bz

/-- One write call on a parameter store. -/
inductive WriteCall (Val : Type) where
  | Set (key : Bytes) (param : Val)
  | SetRaw (key : Bytes) (param : Bytes)
  | SetStruct (pairs : List (Bytes × Val))

/-- The context one write call ends in, whether it returned or panicked. -/
def Store.write (s : Store Ty Val) (ctx : Context) : WriteCall Val → Context
  | .Set key param => (s.Set ctx key param).ctx
  | .SetRaw key param => (s.SetRaw ctx key param).ctx
  | .SetStruct pairs => (s.SetStruct ctx pairs).ctx

/-- The context after a sequence of write calls, each starting where the previous one
ended; a panic is taken to be recovered by the caller. -/
def Store.runWrites (s : Store Ty Val) : Context → List (WriteCall Val) → Context
  | ctx, [] => ctx
  | ctx, c :: cs => Store.runWrites s (s.write ctx c) cs

end ParamStruct

/-! ## Further accessors of x/distribution/keeper/store.go -/

/-- Modelled from the spec: the keys of the two singleton records and the keeper's
codec at their record types. The key constants (keys.go) and the record types are not
among the source files, so they are parameters. -/
structure Singletons (FeePool : Type) where
  FeePoolKey : Bytes
  ProposerKey : Bytes
  cdcFeePool : BinaryCodec FeePool
  cdcConsAddr : BinaryCodec Bytes

section KeeperAccessors

variable {SlashFraction FeePool : Type}

/-- The panic message of `GetFeePool` on an absent record. -/
def feePoolNil : String := "Stored fee pool should not have been nil"

/-- The panic message of `GetPreviousProposerConsAddr` on an absent record. -/
def proposerNotSet : String := "Previous proposer not set"

/-- Go `Keeper.GetFeePool`. -/
def Keeper.GetFeePool (k : Keeper SlashFraction) (sg : Singletons FeePool) (ctx : Context) :
    Result FeePool :=
  let store := ctx.KVStore k.storeKey
  let b := store.Get sg.FeePoolKey
  match b with
  | none => .panic feePoolNil ctx
  | some b =>
    match sg.cdcFeePool.MustUnmarshalBinaryLengthPrefixed (some b) with
    | .error err => .panic err ctx
    | .ok feePool => .ok feePool ctx

/-- Go `Keeper.SetFeePool`. -/
def Keeper.SetFeePool (k : Keeper SlashFraction) (sg : Singletons FeePool) (ctx : Context)
    (feePool : FeePool) : Result Unit :=
  let store := ctx.KVStore k.storeKey
  match sg.cdcFeePool.MustMarshalBinaryLengthPrefixed feePool with
  | .error err => .panic err ctx
  | .ok b => .ok () (ctx.putKVStore k.storeKey (store.Set sg.FeePoolKey b))

/-- Go `Keeper.GetPreviousProposerConsAddr`. -/
def Keeper.GetPreviousProposerConsAddr (k : Keeper SlashFraction) (sg : Singletons FeePool)
    (ctx : Context) : Result Bytes :=
  let store := ctx.KVStore k.storeKey
  let b := store.Get sg.ProposerKey
  match b with
  | none => .panic proposerNotSet ctx
  | some b =>
    match sg.cdcConsAddr.MustUnmarshalBinaryLengthPrefixed (some b) with
    | .error err => .panic err ctx
    | .ok consAddr => .ok consAddr ctx

/-- Go `Keeper.SetPreviousProposerConsAddr`. -/
def Keeper.SetPreviousProposerConsAddr (k : Keeper SlashFraction) (sg : Singletons FeePool)
    (ctx : Context) (consAddr : Bytes) : Result Unit :=
  let store := ctx.KVStore k.storeKey
  match sg.cdcConsAddr.MustMarshalBinaryLengthPrefixed consAddr with
  | .error err => .panic err ctx
  | .ok b => .ok () (ctx.putKVStore k.storeKey (store.Set sg.ProposerKey b))

/-- Go `Keeper.GetValidatorSlashFraction`; the zero value
`types.ValidatorSlashFraction{}` is `default`. -/
def Keeper.GetValidatorSlashFraction [Inhabited SlashFraction] (k : Keeper SlashFraction)
    (ctx : Context) (val : Bytes) (height : Nat) : Result (SlashFraction × Bool) :=
  let store := ctx.KVStore k.storeKey
  let b := store.Get (GetValidatorSlashFractionKey k.tags val height)
  match b with
  | none => .ok (default, false) ctx
  | some b =>
    match k.cdc.MustUnmarshalBinaryLengthPrefixed (some b) with
    | .error err => .panic err ctx
    | .ok fraction => .ok (fraction, true) ctx

/-- The invocations a handler gets from a list of records: one after the other, up to
and including the first one it answers with `stop`. -/
def visitUntilStop {σ : Type} (handler : σ → Nat → SlashFraction → σ × Bool) :
    List (Nat × SlashFraction) → σ → σ
  | [], acc => acc
  | t :: rest, acc =>
    let r := handler acc t.1 t.2
    if r.2 then r.1 else visitUntilStop handler rest r.1

/-- A handler that records every invocation and stops at the height `stopAt`. -/
def recordUntil (stopAt : Nat) : List (Nat × SlashFraction) → Nat → SlashFraction →
    List (Nat × SlashFraction) × Bool :=
  fun acc height fraction => (acc ++ [(height, fraction)], decide (height = stopAt))

end KeeperAccessors

/-! ## A small codec and store, used to instantiate the theorems -/

/-- Runtime types of the demonstration codec. -/
inductive DemoTy where
  | digit
  | flag
  | func
deriving DecidableEq, Repr

/-- Values of the demonstration codec; a `func` value cannot be encoded. -/
inductive DemoVal where
  | digit (d : Fin 10)
  | flag (b : Bool)
  | func
deriving DecidableEq, Repr

/-- The runtime type of a demonstration value. -/
def DemoVal.typeOf : DemoVal → DemoTy
  | .digit _ => .digit
  | .flag _ => .flag
  | .func => .func

/-- The bytes of `true`. -/
def trueBytes : Bytes := [116, 114, 117, 101]

/-- The bytes of `false`. -/
def falseBytes : Bytes := [102, 97, 108, 115, 101]

/-- Encoder of the demonstration codec: a digit is its ASCII character, a flag is
`true` or `false`. -/
def demoMarshal : DemoVal → Except String Bytes
  | .digit d => .ok [⟨48 + d.val, by omega⟩]
  | .flag true => .ok trueBytes
  | .flag false => .ok falseBytes
  | .func => .error "unsupported type"

/-- Decoder of the demonstration codec; absent and empty input are rejected. -/
def demoUnmarshal : Option Bytes → DemoTy → Except String DemoVal
  | none, _ => .error "cannot decode empty bytes"
  | some [], _ => .error "cannot decode empty bytes"
  | some [c], .digit =>
    if h : 48 ≤ c.val ∧ c.val < 58 then .ok (.digit ⟨c.val - 48, by omega⟩)
    else .error "not a digit"
  | some bz, .flag =>
    if bz = trueBytes then .ok (.flag true)
    else if bz = falseBytes then .ok (.flag false)
    else .error "not a boolean"
  | some _, _ => .error "cannot decode"

/-- The demonstration codec. -/
def demoCodec : Codec DemoTy DemoVal :=
  ⟨DemoVal.typeOf, demoMarshal, demoUnmarshal⟩

/-- A parameter store of namespace `gov` over durable store 0 and transient store 1. -/
def demoStore : Store DemoTy DemoVal := NewStore demoCodec 0 1 [103, 111, 118]

/-- A context in which every store is empty. -/
def emptyCtx : Context := ⟨fun _ => KVStore.empty, fun _ => KVStore.empty⟩

/-- A parameter key. -/
def demoKey : Bytes := [107]

/-- The context reached from the empty one by setting the digit 3 at `demoKey`. -/
def seededCtx : Context := (demoStore.Set emptyCtx demoKey (.digit 3)).ctx

/-- Key tags of the demonstration keeper; addresses have two bytes. -/
def demoTags : KeyTags := ⟨3, 8, 2⟩

/-- Codec of the demonstration keeper: a slash fraction is one byte. -/
def demoFractionCodec : BinaryCodec Byte :=
  ⟨fun d => .ok [d],
   fun b => match b with
     | some [d] => .ok d
     | _ => .error "cannot decode"⟩

/-- The demonstration keeper, over durable store 2. -/
def demoKeeper : Keeper Byte := ⟨2, demoFractionCodec, demoTags⟩

/-- A validator address. -/
def demoVal : Bytes := [1, 2]

/-- A delegator address. -/
def demoDel : Bytes := [7, 7]

/-- The largest uint64. -/
def maxUint64 : Nat := 2 ^ 64 - 1

/-- The context with slash fractions of `demoVal` at the given heights, each written
with `setValidatorSlashFraction`. -/
def slashCtx : List Nat → Context
  | [] => emptyCtx
  | h :: hs => (demoKeeper.setValidatorSlashFraction (slashCtx hs) demoVal h 1).ctx

/-- Codec of the demonstration keeper at the fee pool type: a fee pool is one byte. -/
def demoSingletons : Singletons Byte :=
  ⟨[0], [1], demoFractionCodec,
   ⟨fun a => .ok (⟨a.length % 256, Nat.mod_lt _ (by decide)⟩ :: a),
    fun b => match b with
      | some (n :: a) => if n.val = a.length then .ok a else .error "wrong length"
      | _ => .error "cannot decode"⟩⟩

/-- Two parameters of the demonstration store: a digit and a flag. -/
def demoPairs : List (Bytes × DemoVal) := [([97], .digit 4), ([98], .flag true)]

/-- The demonstration pairs with fields still at their zero values. -/
def demoFields : List (Bytes × DemoVal) := [([97], .digit 0), ([98], .flag false)]

/-- The context reached from the empty one by `SetStruct` of the demonstration pairs. -/
def loadedCtx : Context := (demoStore.SetStruct emptyCtx demoPairs).ctx

/-- A sequence of writes on the demonstration store; the second call fails. -/
def demoWrites : List (WriteCall DemoVal) :=
  [.Set demoKey (.digit 3), .Set demoKey (.flag true), .SetRaw [98] [1], .SetStruct demoPairs]

/-! # Theorems -/

/-! ## The backing store -/

theorem getEntries_setEntries_same (l : List (Bytes × Bytes)) (key value : Bytes) :
    getEntries (setEntries l key value) key = some value := by
  induction l with
  | nil => simp [setEntries, getEntries]
  | cons e rest ih =>
    obtain ⟨k, v⟩ := e
    simp only [setEntries]
    split_ifs with h1 h2
    · simp [getEntries]
    · simp [getEntries]
    · simp [getEntries, h1, ih]

theorem getEntries_setEntries_ne (l : List (Bytes × Bytes)) (key value other : Bytes)
    (h : other ≠ key) :
    getEntries (setEntries l key value) other = getEntries l other := by
  induction l with
  | nil => simp [setEntries, getEntries, Ne.symm h]
  | cons e rest ih =>
    obtain ⟨k, v⟩ := e
    simp only [setEntries]
    split_ifs with h1 h2
    · subst h1
      simp [getEntries, Ne.symm h]
    · simp [getEntries, Ne.symm h]
    · simp [getEntries, ih]

theorem getEntries_filter_same (l : List (Bytes × Bytes)) (key : Bytes) :
    getEntries (l.filter (fun e => !decide (e.1 = key))) key = none := by
  induction l with
  | nil => simp [getEntries]
  | cons e rest ih =>
    obtain ⟨k, v⟩ := e
    by_cases hk : k = key
    · simp [List.filter, hk, ih]
    · simp [List.filter, hk, getEntries, ih]

theorem getEntries_filter_ne (l : List (Bytes × Bytes)) (key other : Bytes)
    (h : other ≠ key) :
    getEntries (l.filter (fun e => !decide (e.1 = key))) other = getEntries l other := by
  induction l with
  | nil => simp [getEntries]
  | cons e rest ih =>
    obtain ⟨k, v⟩ := e
    by_cases hk : k = key
    · subst hk
      simp [List.filter, getEntries, Ne.symm h, ih]
    · simp [List.filter, hk, getEntries, ih]

@[simp] theorem KVStore.Get_Set_same (st : KVStore) (key value : Bytes) :
    (st.Set key value).Get key = some value :=
  getEntries_setEntries_same st.entries key value

theorem KVStore.Get_Set_ne (st : KVStore) (key value other : Bytes) (h : other ≠ key) :
    (st.Set key value).Get other = st.Get other :=
  getEntries_setEntries_ne st.entries key value other h

@[simp] theorem KVStore.Has_Set_same (st : KVStore) (key value : Bytes) :
    (st.Set key value).Has key = true := by
  simp [KVStore.Has]

@[simp] theorem KVStore.Get_Delete_same (st : KVStore) (key : Bytes) :
    (st.Delete key).Get key = none :=
  getEntries_filter_same st.entries key

theorem KVStore.Get_Delete_ne (st : KVStore) (key other : Bytes) (h : other ≠ key) :
    (st.Delete key).Get other = st.Get other :=
  getEntries_filter_ne st.entries key other h

@[simp] theorem KVStore.Get_empty (key : Bytes) : KVStore.empty.Get key = none := rfl

@[simp] theorem KVStore.Has_empty (key : Bytes) : KVStore.empty.Has key = false := rfl

/-! ## Byte order and big-endian encoding -/

theorem bytesLt_irrefl (a : Bytes) : bytesLt a a = false := by
  induction a with
  | nil => rfl
  | cons c a ih => simp [bytesLt, ih]

theorem bytesLt_cons (c : Byte) (a b : Bytes) : bytesLt (c :: a) (c :: b) = bytesLt a b := by
  simp [bytesLt]

theorem bytesLt_append_left (p a b : Bytes) : bytesLt (p ++ a) (p ++ b) = bytesLt a b := by
  induction p with
  | nil => rfl
  | cons c p ih => simp [bytesLt, ih]

theorem bytesLt_trans : ∀ (a b c : Bytes), bytesLt a b = true → bytesLt b c = true →
    bytesLt a c = true
  | [], [], _, h, _ => by simp [bytesLt] at h
  | [], _ :: _, [], _, h => by simp [bytesLt] at h
  | [], _ :: _, _ :: _, _, _ => by simp [bytesLt]
  | _ :: _, [], _, h, _ => by simp [bytesLt] at h
  | _ :: _, _ :: _, [], _, h => by simp [bytesLt] at h
  | x :: a, y :: b, z :: c, h1, h2 => by
    simp only [bytesLt] at h1 h2 ⊢
    rcases lt_trichotomy x y with hxy | hxy | hxy
    · rcases lt_trichotomy y z with hyz | hyz | hyz
      · simp [lt_trans hxy hyz]
      · subst hyz
        simp [hxy]
      · simp [hyz, lt_asymm hyz] at h2
    · subst hxy
      rcases lt_trichotomy x z with hxz | hxz | hxz
      · simp [hxz]
      · subst hxz
        simp only [lt_irrefl, if_false] at h1 h2 ⊢
        exact bytesLt_trans a b c h1 h2
      · simp [hxz, lt_asymm hxz] at h2
    · simp [hxy, lt_asymm hxy] at h1

theorem bytesLt_asymm (a b : Bytes) (h : bytesLt a b = true) : bytesLt b a = false := by
  cases hba : bytesLt b a with
  | false => rfl
  | true =>
    have := bytesLt_trans a b a h hba
    rw [bytesLt_irrefl] at this
    cases this

/-- Byte strings of equal length are equal or ordered one way. -/
theorem bytesLt_total_of_length_eq : ∀ (a b : Bytes), a.length = b.length →
    bytesLt a b = true ∨ a = b ∨ bytesLt b a = true
  | [], [], _ => Or.inr (Or.inl rfl)
  | [], _ :: _, h => by simp at h
  | _ :: _, [], h => by simp at h
  | x :: a, y :: b, h => by
    rcases lt_trichotomy x y with hxy | hxy | hxy
    · left
      simp [bytesLt, hxy]
    · subst hxy
      have hlen : a.length = b.length := by simpa using h
      rcases bytesLt_total_of_length_eq a b hlen with h1 | h1 | h1
      · left
        simpa [bytesLt] using h1
      · right
        left
        rw [h1]
      · right
        right
        simpa [bytesLt] using h1
    · right
      right
      simp [bytesLt, hxy]

/-- With prefixes of equal length, a strict order of the prefixes decides the order. -/
theorem bytesLt_append_of_lt : ∀ (a b x y : Bytes), a.length = b.length →
    bytesLt a b = true → bytesLt (a ++ x) (b ++ y) = true
  | [], [], _, _, _, h => by simp [bytesLt] at h
  | [], _ :: _, _, _, h, _ => by simp at h
  | _ :: _, [], _, _, h, _ => by simp at h
  | c :: a, d :: b, x, y, hlen, h => by
    simp only [bytesLt, List.cons_append] at h ⊢
    rcases lt_trichotomy c d with hcd | hcd | hcd
    · simp [hcd]
    · subst hcd
      simp only [lt_irrefl, if_false] at h ⊢
      exact bytesLt_append_of_lt a b x y (by simpa using hlen) h
    · simp [hcd, lt_asymm hcd] at h

theorem beBytes_length (n h : Nat) : (beBytes n h).length = n := by
  induction n with
  | zero => rfl
  | succ n ih => simp [beBytes, ih]

theorem beBytes_mod_of_le (n m h : Nat) (hnm : n ≤ m) :
    beBytes n (h % 256 ^ m) = beBytes n h := by
  induction n with
  | zero => rfl
  | succ n ih =>
    have hbyte : h % 256 ^ m / 256 ^ n % 256 = h / 256 ^ n % 256 := by
      obtain ⟨d, rfl⟩ : ∃ d, m = n + (d + 1) := ⟨m - n - 1, by omega⟩
      rw [pow_add, Nat.mod_mul_right_div_self, pow_succ]
      exact Nat.mod_mod_of_dvd _ (Dvd.intro_left _ rfl)
    simp only [beBytes, hbyte, ih (by omega)]

theorem beBytes_mod (n h : Nat) : beBytes n (h % 256 ^ n) = beBytes n h :=
  beBytes_mod_of_le n n h le_rfl

/-- Big-endian encoding is order preserving: the lexicographic order of the encodings
of two numbers below `256 ^ n` is their numeric order. -/
theorem bytesLt_beBytes (n : Nat) : ∀ a b : Nat, a < 256 ^ n → b < 256 ^ n →
    bytesLt (beBytes n a) (beBytes n b) = decide (a < b) := by
  induction n with
  | zero =>
    intro a b ha hb
    simp at ha hb
    subst ha hb
    rfl
  | succ n ih =>
    intro a b ha hb
    have hpos : 0 < 256 ^ n := by positivity
    have hqa : a / 256 ^ n < 256 := by
      rw [Nat.div_lt_iff_lt_mul hpos]
      rw [pow_succ] at ha
      linarith
    have hqb : b / 256 ^ n < 256 := by
      rw [Nat.div_lt_iff_lt_mul hpos]
      rw [pow_succ] at hb
      linarith
    have hda := Nat.div_add_mod a (256 ^ n)
    have hdb := Nat.div_add_mod b (256 ^ n)
    have hra : a % 256 ^ n < 256 ^ n := Nat.mod_lt _ hpos
    have hrb : b % 256 ^ n < 256 ^ n := Nat.mod_lt _ hpos
    have hrec := ih (a % 256 ^ n) (b % 256 ^ n) hra hrb
    rw [beBytes_mod, beBytes_mod] at hrec
    simp only [beBytes, bytesLt, Fin.mk_lt_mk, Nat.mod_eq_of_lt hqa, Nat.mod_eq_of_lt hqb]
    rcases lt_trichotomy (a / 256 ^ n) (b / 256 ^ n) with hq | hq | hq
    · have hab : a < b := by
        have hle : 256 ^ n * (a / 256 ^ n + 1) ≤ 256 ^ n * (b / 256 ^ n) :=
          Nat.mul_le_mul_left _ hq
        rw [mul_add, mul_one] at hle
        omega
      simp [hq, hab]
    · have hab : a < b ↔ a % 256 ^ n < b % 256 ^ n := by
        rw [hq] at hda
        omega
      simp [hq, hrec, hab]
    · have hab : ¬ a < b := by
        have hle : 256 ^ n * (b / 256 ^ n + 1) ≤ 256 ^ n * (a / 256 ^ n) :=
          Nat.mul_le_mul_left _ hq
        rw [mul_add, mul_one] at hle
        omega
      simp [hq, lt_asymm hq, hab]

theorem foldl_beBytes (n h acc : Nat) :
    (beBytes n h).foldl (fun acc x => acc * 256 + x.val) acc = acc * 256 ^ n + h % 256 ^ n := by
  induction n generalizing acc with
  | zero => simp [beBytes, Nat.mod_one]
  | succ n ih =>
    simp only [beBytes, List.foldl_cons, ih]
    rw [Nat.mod_pow_succ]
    ring

/-- Decoding a big-endian encoding gives back the encoded digits. -/
theorem beValue_beBytes (n h : Nat) : beValue (beBytes n h) = h % 256 ^ n := by
  simp [beValue, foldl_beBytes]

/-! ## The context -/

@[simp] theorem Context.KVStore_putKVStore (ctx : Context) (key : StoreKey)
    (st : CosmosStore.KVStore) : (ctx.putKVStore key st).KVStore key = st := by
  simp [Context.KVStore, Context.putKVStore]

@[simp] theorem Context.KVStore_putTransientStore (ctx : Context) (key tkey : StoreKey)
    (st : CosmosStore.KVStore) :
    (ctx.putTransientStore tkey st).KVStore key = ctx.KVStore key := rfl

@[simp] theorem Context.TransientStore_putTransientStore (ctx : Context) (key : StoreKey)
    (st : CosmosStore.KVStore) : (ctx.putTransientStore key st).TransientStore key = st := by
  simp [Context.TransientStore, Context.putTransientStore]

@[simp] theorem Context.TransientStore_putKVStore (ctx : Context) (key tkey : StoreKey)
    (st : CosmosStore.KVStore) :
    (ctx.putKVStore key st).TransientStore tkey = ctx.TransientStore tkey := rfl

@[simp] theorem Context.KVStore_resetTransient (ctx : Context) (key : StoreKey) :
    ctx.resetTransient.KVStore key = ctx.KVStore key := rfl

@[simp] theorem Context.TransientStore_resetTransient (ctx : Context) (key : StoreKey) :
    ctx.resetTransient.TransientStore key = CosmosStore.KVStore.empty := rfl

/-! ## The parameter store -/

section ParamStoreTheorems

variable {Ty Val : Type}

theorem Store.kvStore_Get (s : Store Ty Val) (ctx : Context) (key : Bytes) :
    (s.kvStore ctx).Get key = (ctx.KVStore s.key).Get (s.space ++ [sep] ++ key) := rfl

theorem Store.transientStore_Has (s : Store Ty Val) (ctx : Context) (key : Bytes) :
    (s.transientStore ctx).Has key
      = (ctx.TransientStore s.tkey).Has (s.space ++ [sep] ++ key) := rfl

theorem Store.kvStore_Get_written (s : Store Ty Val) (ctx : Context) (key bz : Bytes) :
    (s.kvStore (s.written ctx key bz)).Get key = some bz := by
  simp [Store.kvStore_Get, Store.written]

theorem Store.transientStore_Has_written (s : Store Ty Val) (ctx : Context)
    (key bz : Bytes) : (s.transientStore (s.written ctx key bz)).Has key = true := by
  simp [Store.transientStore_Has, Store.written]

theorem Store.SetRaw_eq (s : Store Ty Val) (ctx : Context) (key param : Bytes) :
    s.SetRaw ctx key param = .ok () (s.written ctx key param) := rfl

/-- The call `Store.Set` panics with the type-mismatch error, in the context it was called in,
when bytes are stored and do not decode as the type of the parameter. -/
theorem Store.Set_mismatch (s : Store Ty Val) (ctx : Context) (key b : Bytes) (param : Val)
    (err : String) (hb : (s.kvStore ctx).Get key = some b)
    (hdec : s.cdc.UnmarshalJSON (some b) (s.cdc.TypeOf param) = .error err) :
    s.Set ctx key param = .panic typeMismatch ctx := by
  simp [Store.Set, hb, hdec]

/-- The call `Store.Set` panics with the encoder's error, in the context it was called in, when
the type check passes and the parameter cannot be encoded. -/
theorem Store.Set_unencodable (s : Store Ty Val) (ctx : Context) (key : Bytes) (param : Val)
    (err : String)
    (hchk : ∀ b, (s.kvStore ctx).Get key = some b →
      ∃ x, s.cdc.UnmarshalJSON (some b) (s.cdc.TypeOf param) = .ok x)
    (henc : s.cdc.MarshalJSON param = .error err) :
    s.Set ctx key param = .panic err ctx := by
  cases hb : (s.kvStore ctx).Get key with
  | none => simp [Store.Set, hb, henc]
  | some b =>
    obtain ⟨x, hx⟩ := hchk b hb
    simp [Store.Set, hb, hx, henc]

/-- The call `Store.Set` writes the encoding and the change flag when the type check passes and
the parameter is encodable. -/
theorem Store.Set_written (s : Store Ty Val) (ctx : Context) (key bz : Bytes) (param : Val)
    (hchk : ∀ b, (s.kvStore ctx).Get key = some b →
      ∃ x, s.cdc.UnmarshalJSON (some b) (s.cdc.TypeOf param) = .ok x)
    (henc : s.cdc.MarshalJSON param = .ok bz) :
    s.Set ctx key param = .ok () (s.written ctx key bz) := by
  cases hb : (s.kvStore ctx).Get key with
  | none =>
    simp only [Store.Set, hb, henc]
    rfl
  | some b =>
    obtain ⟨x, hx⟩ := hchk b hb
    simp only [Store.Set, hb, hx, henc]
    rfl

/-- What a successful `Store.Set` tells: the type check passed, the parameter was
encoded, and the call ended in the written context. -/
theorem Store.Set_ok_inv (s : Store Ty Val) (ctx : Context) (key : Bytes) (param : Val)
    (hok : (s.Set ctx key param).isOk = true) :
    (∀ b, (s.kvStore ctx).Get key = some b →
      ∃ x, s.cdc.UnmarshalJSON (some b) (s.cdc.TypeOf param) = .ok x) ∧
    ∃ bz, s.cdc.MarshalJSON param = .ok bz ∧
      s.Set ctx key param = .ok () (s.written ctx key bz) := by
  have hchk : ∀ b, (s.kvStore ctx).Get key = some b →
      ∃ x, s.cdc.UnmarshalJSON (some b) (s.cdc.TypeOf param) = .ok x := by
    intro b hb
    cases hdec : s.cdc.UnmarshalJSON (some b) (s.cdc.TypeOf param) with
    | ok x => exact ⟨x, rfl⟩
    | error err =>
      rw [Store.Set_mismatch s ctx key b param err hb hdec] at hok
      simp [Result.isOk] at hok
  refine ⟨hchk, ?_⟩
  cases henc : s.cdc.MarshalJSON param with
  | ok bz => exact ⟨bz, rfl, Store.Set_written s ctx key bz param hchk henc⟩
  | error err =>
    rw [Store.Set_unencodable s ctx key param err hchk henc] at hok
    simp [Result.isOk] at hok

/-- C1 (parameter round trip): in every context in which `Set(k, v)` succeeds, also
one where `k` already held a value, a following `Get(k, ptr)` with `ptr` of the type of
`v` succeeds and leaves `v` in `ptr`, provided the codec decodes the encoding of `v` as
`v`. -/
theorem set_get_round_trip (s : Store Ty Val) (ctx : Context) (k : Bytes) (v ptr : Val)
    (hty : s.cdc.TypeOf ptr = s.cdc.TypeOf v)
    (hcodec : ∀ bz, s.cdc.MarshalJSON v = .ok bz →
      s.cdc.UnmarshalJSON (some bz) (s.cdc.TypeOf v) = .ok v)
    (hset : (s.Set ctx k v).isOk = true) :
    s.Get (s.Set ctx k v).ctx k ptr = .ok v (s.Set ctx k v).ctx := by
  obtain ⟨_, bz, henc, hres⟩ := Store.Set_ok_inv s ctx k v hset
  rw [hres]
  simp only [Result.ctx, Store.Get, Store.kvStore_Get_written, hty, hcodec bz henc]

/-- C2 (type-consistency enforcement): if bytes are stored at `k` and do not decode as
the runtime type of `v`, `Set(k, v)` panics with the type-mismatch error and writes
nothing; in particular, after a successful `Set(k, v1)`, a `Set(k, v)` whose type does
not decode the encoding of `v1` panics. -/
theorem set_type_mismatch_panics (s : Store Ty Val) (ctx : Context) (k : Bytes) (v : Val) :
    (∀ b err, (s.kvStore ctx).Get k = some b →
      s.cdc.UnmarshalJSON (some b) (s.cdc.TypeOf v) = .error err →
      s.Set ctx k v = .panic typeMismatch ctx) ∧
    (∀ v1 bz1 err, s.cdc.MarshalJSON v1 = .ok bz1 → (s.Set ctx k v1).isOk = true →
      s.cdc.UnmarshalJSON (some bz1) (s.cdc.TypeOf v) = .error err →
      s.Set (s.Set ctx k v1).ctx k v = .panic typeMismatch (s.Set ctx k v1).ctx) := by
  refine ⟨fun b err hb hdec => Store.Set_mismatch s ctx k b v err hb hdec, ?_⟩
  intro v1 bz1 err henc hset hdec
  obtain ⟨_, bz, henc', hres⟩ := Store.Set_ok_inv s ctx k v1 hset
  have hbz : bz = bz1 := by
    rw [henc] at henc'
    cases henc'
    rfl
  subst hbz
  rw [hres]
  exact Store.Set_mismatch s _ k bz v err (Store.kvStore_Get_written s ctx k bz) hdec

/-- C3 (Set succeeds exactly when allowed): for an encodable `v`, `Set(k, v)` succeeds
if nothing is stored at `k` or the stored bytes decode as the type of `v`; after a
success `GetRaw(k)` is the encoding of `v`, `Has(k)` is true and `Modified(k)` is true.
Conversely, for every `v`, `Set(k, v)` fails only if the stored bytes do not decode as
the type of `v` or `v` cannot be encoded. -/
theorem set_succeeds_iff_allowed (s : Store Ty Val) (ctx : Context) (k : Bytes) (v : Val) :
    (∀ bz, s.cdc.MarshalJSON v = .ok bz →
      (((s.kvStore ctx).Get k = none ∨
          ∃ b x, (s.kvStore ctx).Get k = some b ∧
            s.cdc.UnmarshalJSON (some b) (s.cdc.TypeOf v) = .ok x) →
        (s.Set ctx k v).isOk = true) ∧
      ((s.Set ctx k v).isOk = true →
        s.GetRaw (s.Set ctx k v).ctx k = .ok (some bz) (s.Set ctx k v).ctx ∧
        s.Has (s.Set ctx k v).ctx k = .ok true (s.Set ctx k v).ctx ∧
        s.Modified (s.Set ctx k v).ctx k = .ok true (s.Set ctx k v).ctx)) ∧
    ((s.Set ctx k v).isOk = false →
      (∃ b err, (s.kvStore ctx).Get k = some b ∧
        s.cdc.UnmarshalJSON (some b) (s.cdc.TypeOf v) = .error err) ∨
      ∃ err, s.cdc.MarshalJSON v = .error err) := by
  refine ⟨fun bz henc => ⟨?_, ?_⟩, ?_⟩
  · intro hallowed
    have hchk : ∀ b, (s.kvStore ctx).Get k = some b →
        ∃ x, s.cdc.UnmarshalJSON (some b) (s.cdc.TypeOf v) = .ok x := by
      intro b hb
      rcases hallowed with hnone | ⟨b', x, hb', hx⟩
      · rw [hnone] at hb
        cases hb
      · rw [hb'] at hb
        cases hb
        exact ⟨x, hx⟩
    rw [Store.Set_written s ctx k bz v hchk henc]
    rfl
  · intro hset
    obtain ⟨_, bz', henc', hres⟩ := Store.Set_ok_inv s ctx k v hset
    have hbz : bz' = bz := by
      rw [henc] at henc'
      cases henc'
      rfl
    subst hbz
    rw [hres]
    have h1 := Store.kvStore_Get_written s ctx k bz'
    have h2 := Store.transientStore_Has_written s ctx k bz'
    have h3 : (s.kvStore (s.written ctx k bz')).Has k = true := by
      show ((s.kvStore _).Get k).isSome = true
      rw [h1]
      rfl
    simp [Result.ctx, Store.GetRaw, Store.Has, Store.Modified, h1, h2, h3]
  · intro hfail
    by_cases hchk : ∀ b, (s.kvStore ctx).Get k = some b →
        ∃ x, s.cdc.UnmarshalJSON (some b) (s.cdc.TypeOf v) = .ok x
    · right
      cases henc : s.cdc.MarshalJSON v with
      | error err => exact ⟨err, rfl⟩
      | ok bz =>
        rw [Store.Set_written s ctx k bz v hchk henc] at hfail
        simp [Result.isOk] at hfail
    · left
      push_neg at hchk
      obtain ⟨b, hb, hno⟩ := hchk
      cases hdec : s.cdc.UnmarshalJSON (some b) (s.cdc.TypeOf v) with
      | error err => exact ⟨b, err, hb, hdec⟩
      | ok x => exact absurd hdec (hno x)

/-- C4 (change-flag lifecycle): `Modified(k)` is false when the transient store is
empty; it is true right after a successful `Set(k, v)`, whatever the stores held before;
and once the transient store has been reset for a new block it is false again, while
`Has(k)` is still true. -/
theorem modified_lifecycle (s : Store Ty Val) (ctx : Context) (k : Bytes) (v : Val) :
    (ctx.TransientStore s.tkey = KVStore.empty → s.Modified ctx k = .ok false ctx) ∧
    ((s.Set ctx k v).isOk = true →
      s.Modified (s.Set ctx k v).ctx k = .ok true (s.Set ctx k v).ctx ∧
      s.Modified (s.Set ctx k v).ctx.resetTransient k
        = .ok false (s.Set ctx k v).ctx.resetTransient ∧
      s.Has (s.Set ctx k v).ctx.resetTransient k
        = .ok true (s.Set ctx k v).ctx.resetTransient) := by
  constructor
  · intro hfresh
    simp [Store.Modified, Store.transientStore_Has, hfresh]
  · intro hset
    obtain ⟨_, bz, _, hres⟩ := Store.Set_ok_inv s ctx k v hset
    rw [hres]
    have h1 := Store.kvStore_Get_written s ctx k bz
    have h2 := Store.transientStore_Has_written s ctx k bz
    have h3 : (s.kvStore (s.written ctx k bz).resetTransient).Has k = true := by
      show ((s.kvStore (s.written ctx k bz)).Get k).isSome = true
      rw [h1]
      rfl
    have h4 : (s.transientStore (s.written ctx k bz).resetTransient).Has k = false := by
      simp [Store.transientStore_Has]
    simp [Result.ctx, Store.Modified, Store.Has, h2, h3, h4]

/-- C5 (Get fails on absence or bad bytes): `Get(k, ptr)` hands the bytes read at `k`
to the decoder. With nothing stored it panics, the decoder rejecting absent input; with
bytes stored that do not decode as the type of `ptr` it panics; otherwise it succeeds
and `ptr` holds the decoded value. -/
theorem get_fails_or_decodes (s : Store Ty Val) (ctx : Context) (k : Bytes) (ptr : Val) :
    (∀ err, (s.kvStore ctx).Get k = none →
      s.cdc.UnmarshalJSON none (s.cdc.TypeOf ptr) = .error err →
      s.Get ctx k ptr = .panic err ctx) ∧
    (∀ b err, (s.kvStore ctx).Get k = some b →
      s.cdc.UnmarshalJSON (some b) (s.cdc.TypeOf ptr) = .error err →
      s.Get ctx k ptr = .panic err ctx) ∧
    (∀ b x, (s.kvStore ctx).Get k = some b →
      s.cdc.UnmarshalJSON (some b) (s.cdc.TypeOf ptr) = .ok x →
      s.Get ctx k ptr = .ok x ctx) := by
  refine ⟨?_, ?_, ?_⟩
  · intro err hb hdec
    simp [Store.Get, hb, hdec]
  · intro b err hb hdec
    simp [Store.Get, hb, hdec]
  · intro b x hb hdec
    simp [Store.Get, hb, hdec]

/-- C6 (GetIfExists is a guarded Get): with nothing stored at `k`, `GetIfExists(k, ptr)`
succeeds and leaves `ptr` as it was; with bytes stored at `k` it is `Get(k, ptr)`. -/
theorem getIfExists_guarded (s : Store Ty Val) (ctx : Context) (k : Bytes) (ptr : Val) :
    ((s.kvStore ctx).Get k = none → s.GetIfExists ctx k ptr = .ok ptr ctx) ∧
    (∀ b, (s.kvStore ctx).Get k = some b → s.GetIfExists ctx k ptr = s.Get ctx k ptr) := by
  constructor
  · intro hb
    simp [Store.GetIfExists, hb]
  · intro b hb
    simp [Store.GetIfExists, Store.Get, hb]

/-- C7 (SetRaw bypasses the type check): in every context `SetRaw(k, b)` returns
normally; afterwards `GetRaw(k)` is exactly `b` and `Modified(k)` is true. -/
theorem setRaw_unchecked (s : Store Ty Val) (ctx : Context) (k b : Bytes) :
    (s.SetRaw ctx k b).isOk = true ∧
    s.GetRaw (s.SetRaw ctx k b).ctx k = .ok (some b) (s.SetRaw ctx k b).ctx ∧
    s.Modified (s.SetRaw ctx k b).ctx k = .ok true (s.SetRaw ctx k b).ctx := by
  rw [Store.SetRaw_eq]
  have h1 := Store.kvStore_Get_written s ctx k b
  have h2 := Store.transientStore_Has_written s ctx k b
  simp [Result.ctx, Result.isOk, Store.GetRaw, Store.Modified, h1, h2]

theorem ReadOnlyStore.call_ctx (ros : ReadOnlyStore Ty Val) (ctx : Context)
    (c : ROCall Val) : (ros.call ctx c).ctx = ctx := by
  cases c with
  | Get key ptr =>
    simp only [ReadOnlyStore.call, ReadOnlyStore.Get, Store.Get]
    cases ros.s.cdc.UnmarshalJSON ((ros.s.kvStore ctx).Get key) (ros.s.cdc.TypeOf ptr) <;> rfl
  | GetRaw key => rfl
  | Has key => rfl
  | Modified key => rfl
  | Space => rfl

/-- C8 (read-only view immutability): after every finite sequence of calls through
`ReadOnlyStore` the context, hence every durable and every transient store, is the one
the sequence started in; and each `ReadOnlyStore` method gives the result of the method
of the same name of the backing `Store`. -/
theorem readOnly_immutable (ros : ReadOnlyStore Ty Val) (ctx : Context)
    (calls : List (ROCall Val)) :
    ros.run ctx calls = ctx ∧
    (∀ key ptr, ros.Get ctx key ptr = ros.s.Get ctx key ptr) ∧
    (∀ key, ros.GetRaw ctx key = ros.s.GetRaw ctx key) ∧
    (∀ key, ros.Has ctx key = ros.s.Has ctx key) ∧
    (∀ key, ros.Modified ctx key = ros.s.Modified ctx key) ∧
    ros.Space = ros.s.Space := by
  refine ⟨?_, fun _ _ => rfl, fun _ => rfl, fun _ => rfl, fun _ => rfl, rfl⟩
  induction calls with
  | nil => rfl
  | cons c cs ih =>
    simp only [ReadOnlyStore.run, ReadOnlyStore.call_ctx]
    exact ih

end ParamStoreTheorems

/-! ## The theorems at the demonstration store -/

/-- The round trip at the demonstration store, over a key that already holds a digit. -/
theorem set_get_round_trip_witness :
    (demoStore.Set seededCtx demoKey (.digit 7)).isOk = true ∧
    demoStore.Get (demoStore.Set seededCtx demoKey (.digit 7)).ctx demoKey (.digit 0)
      = .ok (.digit 7) (demoStore.Set seededCtx demoKey (.digit 7)).ctx :=
  ⟨by decide,
   set_get_round_trip demoStore seededCtx demoKey (.digit 7) (.digit 0) rfl
     (by
       intro bz h
       cases h
       rfl)
     (by decide)⟩

/-- A flag is refused at a key that holds a digit, both in a given context and right
after the digit was set. -/
theorem set_type_mismatch_panics_witness :
    (demoStore.kvStore seededCtx).Get demoKey = some [51] ∧
    demoStore.cdc.UnmarshalJSON (some [51]) (demoStore.cdc.TypeOf (.flag true))
      = .error "not a boolean" ∧
    demoStore.Set seededCtx demoKey (.flag true) = .panic typeMismatch seededCtx ∧
    demoStore.cdc.MarshalJSON (.digit 3) = .ok [51] ∧
    (demoStore.Set emptyCtx demoKey (.digit 3)).isOk = true ∧
    demoStore.Set (demoStore.Set emptyCtx demoKey (.digit 3)).ctx demoKey (.flag true)
      = .panic typeMismatch (demoStore.Set emptyCtx demoKey (.digit 3)).ctx :=
  ⟨by decide, rfl,
   (set_type_mismatch_panics demoStore seededCtx demoKey (.flag true)).1 [51]
     "not a boolean" (by decide) rfl,
   rfl, by decide,
   (set_type_mismatch_panics demoStore emptyCtx demoKey (.flag true)).2 (.digit 3) [51]
     "not a boolean" rfl (by decide) rfl⟩

/-- A digit is accepted at an empty key and at a key holding a digit, and is then what
`GetRaw` returns; a value that cannot be encoded is refused. -/
theorem set_succeeds_iff_allowed_witness :
    demoStore.cdc.MarshalJSON (.digit 7) = .ok [55] ∧
    (demoStore.kvStore emptyCtx).Get demoKey = none ∧
    (demoStore.Set emptyCtx demoKey (.digit 7)).isOk = true ∧
    (demoStore.Set seededCtx demoKey (.digit 7)).isOk = true ∧
    demoStore.GetRaw (demoStore.Set seededCtx demoKey (.digit 7)).ctx demoKey
      = .ok (some [55]) (demoStore.Set seededCtx demoKey (.digit 7)).ctx ∧
    (demoStore.Set seededCtx demoKey .func).isOk = false ∧
    ((∃ b err, (demoStore.kvStore seededCtx).Get demoKey = some b ∧
        demoStore.cdc.UnmarshalJSON (some b) (demoStore.cdc.TypeOf .func) = .error err) ∨
      ∃ err, demoStore.cdc.MarshalJSON .func = .error err) :=
  ⟨rfl, by decide,
   ((set_succeeds_iff_allowed demoStore emptyCtx demoKey (.digit 7)).1 [55] rfl).1
     (Or.inl (by decide)),
   by decide,
   (((set_succeeds_iff_allowed demoStore seededCtx demoKey (.digit 7)).1 [55] rfl).2
     (by decide)).1,
   by decide,
   (set_succeeds_iff_allowed demoStore seededCtx demoKey .func).2 (by decide)⟩

/-- The change flag over one block of the demonstration store. -/
theorem modified_lifecycle_witness :
    emptyCtx.TransientStore demoStore.tkey = KVStore.empty ∧
    demoStore.Modified emptyCtx demoKey = .ok false emptyCtx ∧
    (demoStore.Set emptyCtx demoKey (.digit 3)).isOk = true ∧
    demoStore.Modified (demoStore.Set emptyCtx demoKey (.digit 3)).ctx demoKey
      = .ok true (demoStore.Set emptyCtx demoKey (.digit 3)).ctx ∧
    demoStore.Modified (demoStore.Set emptyCtx demoKey (.digit 3)).ctx.resetTransient demoKey
      = .ok false (demoStore.Set emptyCtx demoKey (.digit 3)).ctx.resetTransient ∧
    demoStore.Has (demoStore.Set emptyCtx demoKey (.digit 3)).ctx.resetTransient demoKey
      = .ok true (demoStore.Set emptyCtx demoKey (.digit 3)).ctx.resetTransient :=
  ⟨rfl, (modified_lifecycle demoStore emptyCtx demoKey (.digit 3)).1 rfl, by decide,
   (modified_lifecycle demoStore emptyCtx demoKey (.digit 3)).2 (by decide)⟩

/-- The three outcomes of `Get` at the demonstration store, whose decoder rejects
absent input. -/
theorem get_fails_or_decodes_witness :
    (demoStore.kvStore emptyCtx).Get demoKey = none ∧
    demoStore.Get emptyCtx demoKey (.digit 0) = .panic "cannot decode empty bytes" emptyCtx ∧
    (demoStore.kvStore seededCtx).Get demoKey = some [51] ∧
    demoStore.Get seededCtx demoKey (.flag false) = .panic "not a boolean" seededCtx ∧
    demoStore.Get seededCtx demoKey (.digit 0) = .ok (.digit 3) seededCtx :=
  ⟨by decide,
   (get_fails_or_decodes demoStore emptyCtx demoKey (.digit 0)).1 _ (by decide) rfl,
   by decide,
   (get_fails_or_decodes demoStore seededCtx demoKey (.flag false)).2.1 [51] _
     (by decide) rfl,
   (get_fails_or_decodes demoStore seededCtx demoKey (.digit 0)).2.2 [51] (.digit 3)
     (by decide) rfl⟩

/-- The two cases of `GetIfExists` at the demonstration store. -/
theorem getIfExists_guarded_witness :
    (demoStore.kvStore emptyCtx).Get demoKey = none ∧
    demoStore.GetIfExists emptyCtx demoKey (.digit 9) = .ok (.digit 9) emptyCtx ∧
    (demoStore.kvStore seededCtx).Get demoKey = some [51] ∧
    demoStore.GetIfExists seededCtx demoKey (.digit 9)
      = demoStore.Get seededCtx demoKey (.digit 9) :=
  ⟨by decide, (getIfExists_guarded demoStore emptyCtx demoKey (.digit 9)).1 (by decide),
   by decide, (getIfExists_guarded demoStore seededCtx demoKey (.digit 9)).2 [51] (by decide)⟩

/-! ## The distribution keeper -/

section KeeperTheorems

variable {SlashFraction : Type}

/-- C9 (withdraw-address default policy): `GetDelegatorWithdrawAddr(d)` returns `d`
when nothing is stored for `d`; after `SetDelegatorWithdrawAddr(d, w)` it returns `w`;
after `RemoveDelegatorWithdrawAddr(d, x)` it returns `d`, whatever `x` is, also when a
withdraw address had been set before. -/
theorem withdraw_addr_default_policy (k : Keeper SlashFraction) (ctx : Context)
    (d w x : Bytes) :
    ((ctx.KVStore k.storeKey).Get (GetDelegatorWithdrawAddrKey k.tags d) = none →
      k.GetDelegatorWithdrawAddr ctx d = .ok d ctx) ∧
    k.GetDelegatorWithdrawAddr (k.SetDelegatorWithdrawAddr ctx d w).ctx d
      = .ok w (k.SetDelegatorWithdrawAddr ctx d w).ctx ∧
    k.GetDelegatorWithdrawAddr (k.RemoveDelegatorWithdrawAddr ctx d x).ctx d
      = .ok d (k.RemoveDelegatorWithdrawAddr ctx d x).ctx ∧
    k.GetDelegatorWithdrawAddr
        (k.RemoveDelegatorWithdrawAddr (k.SetDelegatorWithdrawAddr ctx d w).ctx d x).ctx d
      = .ok d
        (k.RemoveDelegatorWithdrawAddr (k.SetDelegatorWithdrawAddr ctx d w).ctx d x).ctx := by
  have hrem : ∀ c : Context,
      k.GetDelegatorWithdrawAddr (k.RemoveDelegatorWithdrawAddr c d x).ctx d
        = .ok d (k.RemoveDelegatorWithdrawAddr c d x).ctx := by
    intro c
    simp [Keeper.GetDelegatorWithdrawAddr, Keeper.RemoveDelegatorWithdrawAddr, Result.ctx]
  refine ⟨?_, ?_, hrem ctx, hrem _⟩
  · intro hb
    simp [Keeper.GetDelegatorWithdrawAddr, hb]
  · simp [Keeper.GetDelegatorWithdrawAddr, Keeper.SetDelegatorWithdrawAddr, Result.ctx]

end KeeperTheorems

/-- The default policy at the demonstration keeper. -/
theorem withdraw_addr_default_policy_witness :
    (emptyCtx.KVStore demoKeeper.storeKey).Get
      (GetDelegatorWithdrawAddrKey demoKeeper.tags demoDel) = none ∧
    demoKeeper.GetDelegatorWithdrawAddr emptyCtx demoDel = .ok demoDel emptyCtx ∧
    (demoKeeper.GetDelegatorWithdrawAddr
      (demoKeeper.SetDelegatorWithdrawAddr emptyCtx demoDel [9, 9]).ctx demoDel).value?
      = some [9, 9] ∧
    (demoKeeper.GetDelegatorWithdrawAddr
      (demoKeeper.RemoveDelegatorWithdrawAddr
        (demoKeeper.SetDelegatorWithdrawAddr emptyCtx demoDel [9, 9]).ctx
        demoDel [4, 4]).ctx demoDel).value? = some demoDel :=
  ⟨by decide,
   (withdraw_addr_default_policy demoKeeper emptyCtx demoDel [9, 9] [4, 4]).1 (by decide),
   by decide, by decide⟩

/-- C10 (slash-fraction range boundaries), at the upper end of the height type: with
slash fractions of one validator stored at the heights 5, 7 and `2^64 - 1`,
`IterateValidatorSlashFractions(val, 0, 2^64 - 1, handler)` returns normally without
invoking the handler once, although all three records lie in the inclusive range; with
the ending height `2^64 - 2` it visits 5 and 7. The ranges of the specification are
visited as stated: over the heights 5, 7, 10 the range (5, 10) visits 5, 7, 10 and the
range (6, 9) visits 7. -/
theorem iterate_skips_all_at_max_ending_height :
    ((slashCtx [5, 7, maxUint64]).KVStore demoKeeper.storeKey).Get
      (GetValidatorSlashFractionKey demoKeeper.tags demoVal maxUint64) = some [1] ∧
    (demoKeeper.IterateValidatorSlashFractions (slashCtx [5, 7, maxUint64]) demoVal 0
      maxUint64 recordAll []).1 = [] ∧
    (demoKeeper.IterateValidatorSlashFractions (slashCtx [5, 7, maxUint64]) demoVal 0
      maxUint64 recordAll []).2.isOk = true ∧
    (demoKeeper.IterateValidatorSlashFractions (slashCtx [5, 7, maxUint64]) demoVal 0
      (maxUint64 - 1) recordAll []).1 = [(5, 1), (7, 1)] ∧
    (demoKeeper.IterateValidatorSlashFractions (slashCtx [5, 7, 10]) demoVal 5 10
      recordAll []).1 = [(5, 1), (7, 1), (10, 1)] ∧
    (demoKeeper.IterateValidatorSlashFractions (slashCtx [5, 7, 10]) demoVal 6 9
      recordAll []).1 = [(7, 1)] := by
  refine ⟨?_, ?_, ?_, ?_, ?_, ?_⟩ <;> decide

/-! ## Range iteration below the largest height -/

theorem two_pow_64 : (2 : Nat) ^ 64 = 256 ^ 8 := by norm_num

theorem GetValidatorSlashFractionHeight_key (tags : KeyTags) (v : Bytes) (h : Nat)
    (hv : v.length = tags.AddrLen) (hh : h < 2 ^ 64) :
    GetValidatorSlashFractionHeight tags (GetValidatorSlashFractionKey tags v h) = h := by
  have hdrop : (v ++ putUint64 h).drop tags.AddrLen = putUint64 h := by
    rw [← hv]
    exact List.drop_left _ _
  have htake : (putUint64 h).take 8 = putUint64 h := by
    apply List.take_of_length_le
    simp [putUint64, beBytes_length]
  rw [two_pow_64] at hh
  simp only [GetValidatorSlashFractionHeight, GetValidatorSlashFractionKey]
  rw [Nat.add_comm 1, List.drop_succ_cons, hdrop, htake]
  rw [putUint64, beValue_beBytes, Nat.mod_eq_of_lt hh]

/-- Order of two slash-fraction keys with addresses of equal length: by address first,
then by height. -/
theorem slashKey_lt_iff (tags : KeyTags) (v w : Bytes) (a b : Nat)
    (hlen : v.length = w.length) (ha : a < 2 ^ 64) (hb : b < 2 ^ 64) :
    bytesLt (GetValidatorSlashFractionKey tags v a) (GetValidatorSlashFractionKey tags w b)
      = true ↔ bytesLt v w = true ∨ (v = w ∧ a < b) := by
  rw [two_pow_64] at ha hb
  simp only [GetValidatorSlashFractionKey, bytesLt_cons, putUint64]
  rcases bytesLt_total_of_length_eq v w hlen with hvw | hvw | hvw
  · simp [hvw, bytesLt_append_of_lt v w _ _ hlen hvw]
  · subst hvw
    simp [bytesLt_append_left, bytesLt_beBytes 8 a b ha hb, bytesLt_irrefl]
  · have h1 := bytesLt_asymm _ _ (bytesLt_append_of_lt w v (beBytes 8 b) (beBytes 8 a)
      hlen.symm hvw)
    have h2 := bytesLt_asymm _ _ hvw
    have h3 : v ≠ w := by
      intro hEq
      subst hEq
      rw [bytesLt_irrefl] at hvw
      cases hvw
    simp [h1, h2, h3]

/-- A slash-fraction key lies in the iterated range of `val` exactly when it is a key of
`val` whose height is in the inclusive range. -/
theorem slashKey_inRange_iff (tags : KeyTags) (val v : Bytes) (s e h : Nat)
    (hlen : v.length = val.length) (hs : s < 2 ^ 64) (he : e + 1 < 2 ^ 64)
    (hh : h < 2 ^ 64) :
    (!bytesLt (GetValidatorSlashFractionKey tags v h)
        (GetValidatorSlashFractionKey tags val s) &&
      bytesLt (GetValidatorSlashFractionKey tags v h)
        (GetValidatorSlashFractionKey tags val (e + 1))) = true ↔
    v = val ∧ s ≤ h ∧ h ≤ e := by
  have h1 := slashKey_lt_iff tags v val h s hlen hh hs
  have h2 := slashKey_lt_iff tags v val h (e + 1) hlen hh he
  simp only [Bool.and_eq_true, Bool.not_eq_true', ← Bool.not_eq_true, h1, h2]
  by_cases hv : v = val
  · subst hv
    simp [bytesLt_irrefl]
    omega
  · simp [hv]

theorem head_of_inRange (tag : Byte) (x y key : Bytes)
    (h1 : bytesLt key (tag :: x) = false) (h2 : bytesLt key (tag :: y) = true) :
    key.head? = some tag := by
  cases key with
  | nil => simp [bytesLt] at h1
  | cons c r =>
    rcases lt_trichotomy c tag with hc | hc | hc
    · simp [bytesLt, hc] at h1
    · simp [hc]
    · simp [bytesLt, hc, lt_asymm hc] at h2

/-- In a store with strictly ascending keys, a read finds exactly the entries. -/
theorem getEntries_eq_some_iff (l : List (Bytes × Bytes))
    (hl : l.Pairwise (fun a b => bytesLt a.1 b.1 = true)) (key value : Bytes) :
    getEntries l key = some value ↔ (key, value) ∈ l := by
  induction l with
  | nil => simp [getEntries]
  | cons e rest ih =>
    obtain ⟨k, v⟩ := e
    rw [List.pairwise_cons] at hl
    simp only [getEntries, List.mem_cons, Prod.mk.injEq]
    by_cases hk : k = key
    · subst hk
      simp only [if_true, Option.some.injEq, true_and]
      constructor
      · intro hv
        exact Or.inl hv.symm
      · rintro (hv | hmem)
        · exact hv.symm
        · have := hl.1 _ hmem
          simp [bytesLt_irrefl] at this
    · simp only [hk, if_false, ih hl.2]
      constructor
      · intro hmem
        exact Or.inr hmem
      · rintro (⟨hEq, _⟩ | hmem)
        · exact absurd hEq.symm hk
        · exact hmem

section RangeTheorems

variable {SlashFraction : Type}

/-- With a handler that never stops and values that all decode, the loop hands the
entries to the handler one after the other and returns normally. -/
theorem Keeper.iterateLoop_never_stop {σ : Type} (k : Keeper SlashFraction) (ctx : Context)
    (handler : σ → Nat → SlashFraction → σ × Bool)
    (hns : ∀ a h f, (handler a h f).2 = false) (L : List (Bytes × Bytes))
    (hdec : ∀ e ∈ L, ∃ f, k.cdc.MustUnmarshalBinaryLengthPrefixed (some e.2) = .ok f)
    (init : σ) :
    k.iterateLoop ctx handler L init
      = ((L.filterMap k.decodeEntry).foldl (fun a t => (handler a t.1 t.2).1) init,
          .ok () ctx) := by
  induction L generalizing init with
  | nil => rfl
  | cons e rest ih =>
    obtain ⟨key, value⟩ := e
    obtain ⟨f, hf⟩ := hdec (key, value) (List.mem_cons_self _ _)
    have hrest : ∀ e ∈ rest, ∃ f, k.cdc.MustUnmarshalBinaryLengthPrefixed (some e.2) = .ok f :=
      fun e he => hdec e (List.mem_cons_of_mem _ he)
    have hd : k.decodeEntry (key, value)
        = some (GetValidatorSlashFractionHeight k.tags key, f) := by
      simp [Keeper.decodeEntry, hf]
    simp only [Keeper.iterateLoop, hf, hns, List.filterMap_cons, hd, List.foldl_cons]
    exact ih hrest _

theorem Keeper.decodeEntry_eq_some_iff (k : Keeper SlashFraction) (e : Bytes × Bytes)
    (t : Nat × SlashFraction) :
    k.decodeEntry e = some t ↔
      t.1 = GetValidatorSlashFractionHeight k.tags e.1 ∧
      k.cdc.MustUnmarshalBinaryLengthPrefixed (some e.2) = .ok t.2 := by
  obtain ⟨h, f⟩ := t
  unfold Keeper.decodeEntry
  cases hdec : k.cdc.MustUnmarshalBinaryLengthPrefixed (some e.2) with
  | error err => simp
  | ok f' =>
    simp only [Option.some.injEq, Prod.mk.injEq, Except.ok.injEq]
    constructor
    · rintro ⟨h1, h2⟩
      exact ⟨h1.symm, h2⟩
    · rintro ⟨h1, h2⟩
      exact ⟨h1.symm, h2⟩

/-- The entries the iterator of `IterateValidatorSlashFractions` yields, in a well-keyed
store and for an ending height below the largest uint64, are entries of the store under
a key of `val` with a height in the inclusive range. -/
theorem mem_slash_range (tags : KeyTags) (st : KVStore) (val : Bytes) (s e : Nat)
    (hval : val.length = tags.AddrLen) (hs : s < 2 ^ 64) (he : e + 1 < 2 ^ 64)
    (hkeys : SlashKeysWF tags st) (en : Bytes × Bytes)
    (hen : en ∈ st.Iterator (GetValidatorSlashFractionKey tags val s)
      (GetValidatorSlashFractionKey tags val (e + 1))) :
    en ∈ st.entries ∧ en.1.head? = some tags.ValidatorSlashFractionPrefix ∧
      ∃ h, s ≤ h ∧ h ≤ e ∧ en.1 = GetValidatorSlashFractionKey tags val h := by
  simp only [KVStore.Iterator, List.mem_filter] at hen
  obtain ⟨hmem, hrange⟩ := hen
  have hsplit := hrange
  simp only [Bool.and_eq_true, Bool.not_eq_true'] at hsplit
  have hhead := head_of_inRange tags.ValidatorSlashFractionPrefix _ _ en.1 hsplit.1 hsplit.2
  obtain ⟨v, h, hv, hh, hkey⟩ := hkeys en hmem hhead
  rw [hkey] at hrange
  have := (slashKey_inRange_iff tags val v s e h (hv.trans hval.symm) hs he hh).1 hrange
  obtain ⟨hvv, h1, h2⟩ := this
  subst hvv
  exact ⟨hmem, hhead, h, h1, h2, hkey⟩

/-- Range iteration below the largest height: in a store with ascending keys that is
well keyed and whose slash-fraction values decode, for a validator address of the fixed
length and `endingHeight < 2^64 - 1`, there is a list `visited` such that every handler
that never stops is invoked on exactly the elements of `visited`, in that order, and
the call returns normally; the heights of `visited` are strictly ascending; and
`visited` holds exactly the decoded slash-fraction records of `val` at the heights `h`
with `startingHeight ≤ h ≤ endingHeight`. -/
theorem Keeper.IterateValidatorSlashFractions_inclusive (k : Keeper SlashFraction)
    (ctx : Context) (val : Bytes) (s e : Nat)
    (hval : val.length = k.tags.AddrLen) (hs : s < 2 ^ 64) (he : e + 1 < 2 ^ 64)
    (hwf : (ctx.KVStore k.storeKey).WF)
    (hkeys : SlashKeysWF k.tags (ctx.KVStore k.storeKey))
    (hdec : ∀ en ∈ (ctx.KVStore k.storeKey).entries,
      en.1.head? = some k.tags.ValidatorSlashFractionPrefix →
      ∃ f, k.cdc.MustUnmarshalBinaryLengthPrefixed (some en.2) = .ok f) :
    ∃ visited : List (Nat × SlashFraction),
      (∀ (σ : Type) (handler : σ → Nat → SlashFraction → σ × Bool) (init : σ),
        (∀ a h f, (handler a h f).2 = false) →
        k.IterateValidatorSlashFractions ctx val s e handler init
          = (visited.foldl (fun a t => (handler a t.1 t.2).1) init, .ok () ctx)) ∧
      (visited.map Prod.fst).Pairwise (fun a b => a < b) ∧
      ∀ h f, (h, f) ∈ visited ↔
        (s ≤ h ∧ h ≤ e ∧ ∃ value,
          (ctx.KVStore k.storeKey).Get (GetValidatorSlashFractionKey k.tags val h)
            = some value ∧
          k.cdc.MustUnmarshalBinaryLengthPrefixed (some value) = .ok f) := by
  have hmod : (e + 1) % 2 ^ 64 = e + 1 := Nat.mod_eq_of_lt he
  have hrange := mem_slash_range k.tags (ctx.KVStore k.storeKey) val s e hval hs he hkeys
  refine ⟨((ctx.KVStore k.storeKey).Iterator (GetValidatorSlashFractionKey k.tags val s)
    (GetValidatorSlashFractionKey k.tags val (e + 1))).filterMap k.decodeEntry, ?_, ?_, ?_⟩
  · intro σ handler init hns
    simp only [Keeper.IterateValidatorSlashFractions, hmod]
    apply Keeper.iterateLoop_never_stop k ctx handler hns
    intro en hen
    obtain ⟨hmem, hhead, _⟩ := hrange en hen
    exact hdec en hmem hhead
  · rw [List.pairwise_map, List.pairwise_filterMap]
    have hsorted : List.Pairwise (fun a b : Bytes × Bytes => bytesLt a.1 b.1 = true)
        ((ctx.KVStore k.storeKey).Iterator (GetValidatorSlashFractionKey k.tags val s)
          (GetValidatorSlashFractionKey k.tags val (e + 1))) :=
      List.Pairwise.filter _ hwf
    refine List.Pairwise.imp_of_mem ?_ hsorted
    intro a b ha hb hab t ht t' ht'
    obtain ⟨_, _, h1, _, h1e, hk1⟩ := hrange a ha
    obtain ⟨_, _, h2, _, h2e, hk2⟩ := hrange b hb
    have ht1 := ((Keeper.decodeEntry_eq_some_iff k a t).1 ht).1
    have ht2 := ((Keeper.decodeEntry_eq_some_iff k b t').1 ht').1
    rw [hk1, GetValidatorSlashFractionHeight_key k.tags val h1 hval (by omega)] at ht1
    rw [hk2, GetValidatorSlashFractionHeight_key k.tags val h2 hval (by omega)] at ht2
    rw [hk1, hk2, slashKey_lt_iff k.tags val val h1 h2 rfl (by omega) (by omega)] at hab
    rw [ht1, ht2]
    rcases hab with hab | ⟨_, hab⟩
    · rw [bytesLt_irrefl] at hab
      cases hab
    · exact hab
  · intro h f
    rw [List.mem_filterMap]
    constructor
    · rintro ⟨en, hen, hd⟩
      obtain ⟨hmem, _, h', h1, h2, hk⟩ := hrange en hen
      obtain ⟨hh, hf⟩ := (Keeper.decodeEntry_eq_some_iff k en (h, f)).1 hd
      rw [hk, GetValidatorSlashFractionHeight_key k.tags val h' hval (by omega)] at hh
      simp only at hh hf
      subst hh
      refine ⟨h1, h2, en.2, ?_, hf⟩
      apply (getEntries_eq_some_iff _ hwf _ _).2
      rw [← hk]
      exact hmem
    · rintro ⟨h1, h2, value, hget, hf⟩
      have hmem : (GetValidatorSlashFractionKey k.tags val h, value)
          ∈ (ctx.KVStore k.storeKey).entries :=
        (getEntries_eq_some_iff _ hwf _ _).1 hget
      refine ⟨(GetValidatorSlashFractionKey k.tags val h, value), ?_, ?_⟩
      · simp only [KVStore.Iterator, List.mem_filter]
        exact ⟨hmem, (slashKey_inRange_iff k.tags val val s e h rfl hs he (by omega)).2
          ⟨rfl, h1, h2⟩⟩
      · apply (Keeper.decodeEntry_eq_some_iff k _ (h, f)).2
        exact ⟨(GetValidatorSlashFractionHeight_key k.tags val h hval (by omega)).symm, hf⟩

end RangeTheorems

/-! ## The representation invariant is kept by the writes -/

/-- Two byte strings are equal or ordered one way. -/
theorem bytesLt_total : ∀ (a b : Bytes), bytesLt a b = true ∨ a = b ∨ bytesLt b a = true
  | [], [] => Or.inr (Or.inl rfl)
  | [], _ :: _ => Or.inl rfl
  | _ :: _, [] => Or.inr (Or.inr rfl)
  | x :: a, y :: b => by
    rcases lt_trichotomy x y with hxy | hxy | hxy
    · left
      simp [bytesLt, hxy]
    · subst hxy
      rcases bytesLt_total a b with h1 | h1 | h1
      · left
        simpa [bytesLt] using h1
      · right
        left
        rw [h1]
      · right
        right
        simpa [bytesLt] using h1
    · right
      right
      simp [bytesLt, hxy]

theorem mem_setEntries (l : List (Bytes × Bytes)) (key value : Bytes) (e : Bytes × Bytes)
    (he : e ∈ setEntries l key value) : e = (key, value) ∨ e ∈ l := by
  induction l with
  | nil =>
    simp only [setEntries, List.mem_singleton] at he
    exact Or.inl he
  | cons hd rest ih =>
    obtain ⟨k, v⟩ := hd
    simp only [setEntries] at he
    split_ifs at he with h1 h2
    · rcases List.mem_cons.1 he with h | h
      · exact Or.inl h
      · exact Or.inr (List.mem_cons_of_mem _ h)
    · rcases List.mem_cons.1 he with h | h
      · exact Or.inl h
      · exact Or.inr h
    · rcases List.mem_cons.1 he with h | h
      · exact Or.inr (h ▸ List.mem_cons_self _ _)
      · rcases ih h with h' | h'
        · exact Or.inl h'
        · exact Or.inr (List.mem_cons_of_mem _ h')

theorem KVStore.WF_empty : KVStore.empty.WF := List.Pairwise.nil

/-- A write keeps the keys strictly ascending. -/
theorem KVStore.WF_Set (st : KVStore) (key value : Bytes) (hwf : st.WF) :
    (st.Set key value).WF := by
  obtain ⟨l⟩ := st
  simp only [KVStore.WF, KVStore.Set] at hwf ⊢
  induction l with
  | nil => simp [setEntries]
  | cons hd rest ih =>
    obtain ⟨k, v⟩ := hd
    rw [List.pairwise_cons] at hwf
    simp only [setEntries]
    split_ifs with h1 h2
    · subst h1
      exact List.pairwise_cons.2 ⟨hwf.1, hwf.2⟩
    · refine List.pairwise_cons.2 ⟨?_, List.pairwise_cons.2 hwf⟩
      intro b hb
      rcases List.mem_cons.1 hb with hb | hb
      · rw [hb]
        exact h2
      · exact bytesLt_trans _ _ _ h2 (hwf.1 b hb)
    · refine List.pairwise_cons.2 ⟨?_, ih hwf.2⟩
      intro b hb
      rcases mem_setEntries rest key value b hb with hb | hb
      · rw [hb]
        rcases bytesLt_total k key with h | h | h
        · exact h
        · exact absurd h h1
        · exact absurd h h2
      · exact hwf.1 b hb

/-- A delete keeps the keys strictly ascending. -/
theorem KVStore.WF_Delete (st : KVStore) (key : Bytes) (hwf : st.WF) :
    (st.Delete key).WF :=
  List.Pairwise.filter _ hwf

/-- Writing a slash fraction of an address of the fixed length at a uint64 height keeps
the store well keyed. -/
theorem SlashKeysWF_Set (tags : KeyTags) (st : KVStore) (val value : Bytes) (h : Nat)
    (hval : val.length = tags.AddrLen) (hh : h < 2 ^ 64) (hkeys : SlashKeysWF tags st) :
    SlashKeysWF tags (st.Set (GetValidatorSlashFractionKey tags val h) value) := by
  intro e he hhead
  rcases mem_setEntries _ _ _ e he with h1 | h1
  · exact ⟨val, h, hval, hh, by rw [h1]⟩
  · exact hkeys e h1 hhead

theorem SlashKeysWF_empty (tags : KeyTags) : SlashKeysWF tags KVStore.empty := by
  intro e he
  cases he

/-- The hypotheses of the range theorem hold in the store with slash fractions at the
heights 5, 7 and 10, where it gives the visits of the heights 5, 7, 10 for the range
(5, 10): every handler that never stops sees the same list, that list is in ascending
order of height, and the height 10 is in it. -/
theorem IterateValidatorSlashFractions_inclusive_at_demo :
    ∃ visited : List (Nat × Byte),
      (demoKeeper.IterateValidatorSlashFractions (slashCtx [5, 7, 10]) demoVal 5 10
        recordAll []).1 = visited ∧
      (visited.map Prod.fst).Pairwise (fun a b => a < b) ∧
      (10, 1) ∈ visited := by
  have hwf : ((slashCtx [5, 7, 10]).KVStore demoKeeper.storeKey).WF := by
    unfold KVStore.WF
    decide
  have hkeys : SlashKeysWF demoKeeper.tags ((slashCtx [5, 7, 10]).KVStore demoKeeper.storeKey) :=
    SlashKeysWF_Set _ _ demoVal _ 5 rfl (by norm_num)
      (SlashKeysWF_Set _ _ demoVal _ 7 rfl (by norm_num)
        (SlashKeysWF_Set _ _ demoVal _ 10 rfl (by norm_num) (SlashKeysWF_empty _)))
  have hdec : ∀ en ∈ ((slashCtx [5, 7, 10]).KVStore demoKeeper.storeKey).entries,
      en.1.head? = some demoKeeper.tags.ValidatorSlashFractionPrefix →
      ∃ f, demoKeeper.cdc.MustUnmarshalBinaryLengthPrefixed (some en.2) = .ok f := by
    have hvalues : ∀ en ∈ ((slashCtx [5, 7, 10]).KVStore demoKeeper.storeKey).entries,
        en.2 = [1] := by decide
    intro en hen _
    rw [hvalues en hen]
    exact ⟨1, rfl⟩
  obtain ⟨visited, hrun, hasc, hmem⟩ :=
    Keeper.IterateValidatorSlashFractions_inclusive demoKeeper (slashCtx [5, 7, 10]) demoVal
      5 10 rfl (by norm_num) (by norm_num) hwf hkeys hdec
  refine ⟨visited, ?_, hasc, (hmem 10 1).2 ⟨by omega, le_rfl, [1], by decide, rfl⟩⟩
  rw [hrun _ recordAll [] (fun _ _ _ => rfl)]
  simp only [recordAll]
  clear hrun hasc hmem
  induction visited using List.reverseRecOn with
  | nil => rfl
  | append_singleton l a ih => simp [List.foldl_append, ih]

/-! ## Failed writes and batch operations of the parameter store -/

section BatchTheorems

variable {Ty Val : Type}

/-- A call of `Store.Set` either ends in the written context or panics in the context
it was called in. -/
theorem Store.Set_cases (s : Store Ty Val) (ctx : Context) (key : Bytes) (param : Val) :
    (∃ bz, s.cdc.MarshalJSON param = .ok bz ∧
      s.Set ctx key param = .ok () (s.written ctx key bz)) ∨
    ∃ err, s.Set ctx key param = .panic err ctx := by
  by_cases hchk : ∀ b, (s.kvStore ctx).Get key = some b →
      ∃ x, s.cdc.UnmarshalJSON (some b) (s.cdc.TypeOf param) = .ok x
  · cases henc : s.cdc.MarshalJSON param with
    | error err => exact Or.inr ⟨err, Store.Set_unencodable s ctx key param err hchk henc⟩
    | ok bz => exact Or.inl ⟨bz, rfl, Store.Set_written s ctx key bz param hchk henc⟩
  · push_neg at hchk
    obtain ⟨b, hb, hno⟩ := hchk
    cases hdec : s.cdc.UnmarshalJSON (some b) (s.cdc.TypeOf param) with
    | error err => exact Or.inr ⟨typeMismatch, Store.Set_mismatch s ctx key b param err hb hdec⟩
    | ok x => exact absurd hdec (hno x)

theorem Store.Set_ctx_of_fail (s : Store Ty Val) (ctx : Context) (key : Bytes) (param : Val)
    (hfail : (s.Set ctx key param).isOk = false) : (s.Set ctx key param).ctx = ctx := by
  rcases Store.Set_cases s ctx key param with ⟨bz, _, h⟩ | ⟨err, h⟩
  · rw [h] at hfail
    simp [Result.isOk] at hfail
  · rw [h]
    rfl

/-- C17 (Set is atomic on failure): a `Set(k, v)` that fails, by a type mismatch or
because `v` cannot be encoded, ends in the context it was called in, so every durable
and transient store is as before; the bytes at `k` and `Modified(k)` are as before. -/
theorem set_failure_keeps_state (s : Store Ty Val) (ctx : Context) (k : Bytes) (v : Val)
    (hfail : (s.Set ctx k v).isOk = false) :
    (s.Set ctx k v).ctx = ctx ∧
    s.GetRaw (s.Set ctx k v).ctx k = s.GetRaw ctx k ∧
    s.Modified (s.Set ctx k v).ctx k = s.Modified ctx k := by
  have h := Store.Set_ctx_of_fail s ctx k v hfail
  rw [h]
  exact ⟨rfl, rfl, rfl⟩

theorem Store.SetStruct_append (s : Store Ty Val) (ctx : Context)
    (done rest : List (Bytes × Val)) :
    s.SetStruct ctx (done ++ rest) =
      match s.SetStruct ctx done with
      | .ok _ c => s.SetStruct c rest
      | .panic err c => .panic err c := by
  induction done generalizing ctx with
  | nil => rfl
  | cons p done ih =>
    obtain ⟨key, v⟩ := p
    simp only [List.cons_append, Store.SetStruct]
    cases s.Set ctx key v with
    | ok u c => exact ih c
    | panic err c => rfl

theorem foldl_setInOrder_panic (s : Store Ty Val) (err : String) (c : Context)
    (pairs : List (Bytes × Val)) :
    pairs.foldl
      (fun (r : Result Unit) (p : Bytes × Val) => match r with
        | .ok _ c => s.Set c p.1 p.2
        | .panic err c => .panic err c)
      (.panic err c) = .panic err c := by
  induction pairs with
  | nil => rfl
  | cons p pairs ih => simpa [List.foldl_cons] using ih

/-- The loop of `SetStruct` is the sequence of `Set` calls. -/
theorem Store.SetStruct_eq_setInOrder (s : Store Ty Val) (ctx : Context)
    (pairs : List (Bytes × Val)) : s.SetStruct ctx pairs = setInOrder s ctx pairs := by
  induction pairs generalizing ctx with
  | nil => rfl
  | cons p pairs ih =>
    obtain ⟨key, v⟩ := p
    simp only [Store.SetStruct, setInOrder, List.foldl_cons]
    cases hset : s.Set ctx key v with
    | ok u c =>
      simp only []
      exact ih c
    | panic err c =>
      simp only []
      exact (foldl_setInOrder_panic s err c pairs).symm

/-- C14 (batch store has no rollback): `SetStruct` is the sequence of the calls
`Set(key_i, field_i)` in declared order; and when the pairs before `(k, v)` are all set
and `Set(k, v)` then fails, `SetStruct` fails with the panic of that call, in the
context reached by setting only the pairs before it, whatever pairs follow. -/
theorem setStruct_no_rollback (s : Store Ty Val) (ctx : Context)
    (pairs done rest : List (Bytes × Val)) (k : Bytes) (v : Val) :
    s.SetStruct ctx pairs = setInOrder s ctx pairs ∧
    ((s.SetStruct ctx done).isOk = true →
      (s.Set (s.SetStruct ctx done).ctx k v).isOk = false →
      (s.SetStruct ctx (done ++ (k, v) :: rest)).toExcept
          = (s.Set (s.SetStruct ctx done).ctx k v).toExcept ∧
        (s.SetStruct ctx (done ++ (k, v) :: rest)).isOk = false ∧
        (s.SetStruct ctx (done ++ (k, v) :: rest)).ctx = (s.SetStruct ctx done).ctx) := by
  refine ⟨Store.SetStruct_eq_setInOrder s ctx _, ?_⟩
  intro hdone hfail
  rw [Store.SetStruct_append]
  cases hd : s.SetStruct ctx done with
  | panic err c =>
    rw [hd] at hdone
    simp [Result.isOk] at hdone
  | ok u c =>
    rw [hd] at hfail
    simp only [Result.ctx] at hfail ⊢
    rcases Store.Set_cases s c k v with ⟨bz, _, h⟩ | ⟨err, h⟩
    · rw [h] at hfail
      simp [Result.isOk] at hfail
    · simp [Store.SetStruct, h, Result.isOk, Result.ctx, Result.toExcept]

theorem Store.GetStruct_cons_ok (s : Store Ty Val) (ctx : Context) (key : Bytes)
    (field v : Val) (rest : List (Bytes × Val))
    (h : s.cdc.UnmarshalJSON ((s.kvStore ctx).Get key) (s.cdc.TypeOf field) = .ok v) :
    s.GetStruct ctx ((key, field) :: rest)
      = ((key, v) :: (s.GetStruct ctx rest).1, (s.GetStruct ctx rest).2) := by
  simp [Store.GetStruct, Store.Get, h]

theorem Store.GetStruct_cons_panic (s : Store Ty Val) (ctx : Context) (key : Bytes)
    (field : Val) (err : String) (rest : List (Bytes × Val))
    (h : s.cdc.UnmarshalJSON ((s.kvStore ctx).Get key) (s.cdc.TypeOf field) = .error err) :
    s.GetStruct ctx ((key, field) :: rest) = ((key, field) :: rest, .panic err ctx) := by
  simp [Store.GetStruct, Store.Get, h]

theorem Store.Get_of_decode_ok (s : Store Ty Val) (ctx : Context) (key : Bytes)
    (field v : Val)
    (h : s.cdc.UnmarshalJSON ((s.kvStore ctx).Get key) (s.cdc.TypeOf field) = .ok v) :
    s.Get ctx key field = .ok v ctx := by
  simp [Store.Get, h]

theorem Store.Get_of_decode_error (s : Store Ty Val) (ctx : Context) (key : Bytes)
    (field : Val) (err : String)
    (h : s.cdc.UnmarshalJSON ((s.kvStore ctx).Get key) (s.cdc.TypeOf field) = .error err) :
    s.Get ctx key field = .panic err ctx := by
  simp [Store.Get, h]

/-- The call `GetStruct` succeeds exactly when every declared key holds bytes that decode as the
type of its field, for a decoder that rejects absent input. -/
theorem Store.GetStruct_isOk_iff (s : Store Ty Val) (ctx : Context)
    (hnil : ∀ ty, ∃ err, s.cdc.UnmarshalJSON none ty = .error err)
    (pairs : List (Bytes × Val)) :
    (s.GetStruct ctx pairs).2.isOk = true ↔
      ∀ p ∈ pairs, ∃ b x, (s.kvStore ctx).Get p.1 = some b ∧
        s.cdc.UnmarshalJSON (some b) (s.cdc.TypeOf p.2) = .ok x := by
  induction pairs with
  | nil => simp [Store.GetStruct, Result.isOk]
  | cons p rest ih =>
    obtain ⟨key, field⟩ := p
    cases hdec : s.cdc.UnmarshalJSON ((s.kvStore ctx).Get key) (s.cdc.TypeOf field) with
    | error err =>
      rw [Store.GetStruct_cons_panic s ctx key field err rest hdec]
      simp only [Result.isOk, Bool.false_eq_true, false_iff]
      intro hall
      obtain ⟨b, x, hb, hx⟩ := hall (key, field) (List.mem_cons_self _ _)
      simp only at hb hx
      rw [hb, hx] at hdec
      cases hdec
    | ok v =>
      rw [Store.GetStruct_cons_ok s ctx key field v rest hdec, ih]
      constructor
      · intro hall p hp
        rcases List.mem_cons.1 hp with hp | hp
        · subst hp
          cases hb : (s.kvStore ctx).Get key with
          | none =>
            obtain ⟨err, herr⟩ := hnil (s.cdc.TypeOf field)
            rw [hb, herr] at hdec
            cases hdec
          | some b =>
            rw [hb] at hdec
            exact ⟨b, v, rfl, hdec⟩
        · exact hall p hp
      · intro hall p hp
        exact hall p (List.mem_cons_of_mem _ hp)

/-- After a successful `GetStruct` the context is unchanged and every field holds what
`Get` on its key returns. -/
theorem Store.GetStruct_ok (s : Store Ty Val) (ctx : Context) (pairs : List (Bytes × Val))
    (hok : (s.GetStruct ctx pairs).2.isOk = true) :
    (s.GetStruct ctx pairs).2 = .ok () ctx ∧
    List.Forall₂ (fun p q => q.1 = p.1 ∧ s.Get ctx p.1 p.2 = .ok q.2 ctx)
      pairs (s.GetStruct ctx pairs).1 := by
  induction pairs with
  | nil => exact ⟨rfl, List.Forall₂.nil⟩
  | cons p rest ih =>
    obtain ⟨key, field⟩ := p
    cases hdec : s.cdc.UnmarshalJSON ((s.kvStore ctx).Get key) (s.cdc.TypeOf field) with
    | error err =>
      rw [Store.GetStruct_cons_panic s ctx key field err rest hdec] at hok
      simp [Result.isOk] at hok
    | ok v =>
      rw [Store.GetStruct_cons_ok s ctx key field v rest hdec] at hok ⊢
      obtain ⟨h1, h2⟩ := ih hok
      exact ⟨h1, List.Forall₂.cons ⟨rfl, Store.Get_of_decode_ok s ctx key field v hdec⟩ h2⟩

/-- The call `GetStruct` stops at the first pair whose `Get` panics: the fields before it are
hydrated, the field of that pair and the fields after it are as they were. -/
theorem Store.GetStruct_first_failure (s : Store Ty Val) (ctx : Context)
    (done rest : List (Bytes × Val)) (k : Bytes) (f : Val) (err : String)
    (hdone : (s.GetStruct ctx done).2.isOk = true)
    (hfail : s.Get ctx k f = .panic err ctx) :
    s.GetStruct ctx (done ++ (k, f) :: rest)
      = ((s.GetStruct ctx done).1 ++ (k, f) :: rest, .panic err ctx) := by
  induction done with
  | nil =>
    cases hdec : s.cdc.UnmarshalJSON ((s.kvStore ctx).Get k) (s.cdc.TypeOf f) with
    | error e =>
      rw [Store.Get_of_decode_error s ctx k f e hdec] at hfail
      cases hfail
      simpa [Store.GetStruct] using Store.GetStruct_cons_panic s ctx k f err rest hdec
    | ok v =>
      rw [Store.Get_of_decode_ok s ctx k f v hdec] at hfail
      cases hfail
  | cons p done ih =>
    obtain ⟨key, field⟩ := p
    cases hdec : s.cdc.UnmarshalJSON ((s.kvStore ctx).Get key) (s.cdc.TypeOf field) with
    | error e =>
      rw [Store.GetStruct_cons_panic s ctx key field e done hdec] at hdone
      simp [Result.isOk] at hdone
    | ok v =>
      rw [Store.GetStruct_cons_ok s ctx key field v done hdec] at hdone ⊢
      rw [List.cons_append, Store.GetStruct_cons_ok s ctx key field v _ hdec, ih hdone]
      rfl

/-- C15 (batch load): `GetStruct` calls `Get` on the declared pairs in order. For a
decoder that rejects absent input it succeeds exactly when every declared key holds
bytes that decode as the type of its field; after a success the context is unchanged
and every field holds the value `Get` decodes for its key; and when the pairs before
`(k, f)` load and `Get(k, f)` panics, `GetStruct` panics with that error in the
unchanged context, the fields before `(k, f)` hydrated and the others untouched. -/
theorem getStruct_hydrates_in_order (s : Store Ty Val) (ctx : Context)
    (pairs done rest : List (Bytes × Val)) (k : Bytes) (f : Val) :
    ((∀ ty, ∃ err, s.cdc.UnmarshalJSON none ty = .error err) →
      ((s.GetStruct ctx pairs).2.isOk = true ↔
        ∀ p ∈ pairs, ∃ b x, (s.kvStore ctx).Get p.1 = some b ∧
          s.cdc.UnmarshalJSON (some b) (s.cdc.TypeOf p.2) = .ok x)) ∧
    ((s.GetStruct ctx pairs).2.isOk = true →
      (s.GetStruct ctx pairs).2 = .ok () ctx ∧
      List.Forall₂ (fun p q => q.1 = p.1 ∧ s.Get ctx p.1 p.2 = .ok q.2 ctx)
        pairs (s.GetStruct ctx pairs).1) ∧
    (∀ err, (s.GetStruct ctx done).2.isOk = true → s.Get ctx k f = .panic err ctx →
      s.GetStruct ctx (done ++ (k, f) :: rest)
        = ((s.GetStruct ctx done).1 ++ (k, f) :: rest, .panic err ctx)) :=
  ⟨fun hnil => Store.GetStruct_isOk_iff s ctx hnil pairs,
   Store.GetStruct_ok s ctx pairs,
   fun err hdone hfail => Store.GetStruct_first_failure s ctx done rest k f err hdone hfail⟩

end BatchTheorems

/-! ## Frame of a parameter write and namespace isolation -/

section FrameTheorems

variable {Ty Val : Type}

theorem Store.Set_WroteAt (s : Store Ty Val) (ctx : Context) (key : Bytes) (param : Val) :
    s.WroteAt key ctx (s.Set ctx key param).ctx := by
  rcases Store.Set_cases s ctx key param with ⟨bz, _, h⟩ | ⟨err, h⟩
  · exact Or.inr ⟨bz, by rw [h]; rfl⟩
  · exact Or.inl (by rw [h]; rfl)

theorem Store.SetRaw_WroteAt (s : Store Ty Val) (ctx : Context) (key param : Bytes) :
    s.WroteAt key ctx (s.SetRaw ctx key param).ctx :=
  Or.inr ⟨param, rfl⟩

/-- A write at `key` leaves every durable read other than the one at the underlying key
`space ‖ '/' ‖ key` of the store `s.key` as it was. -/
theorem Store.WroteAt_durable (s : Store Ty Val) (key : Bytes) (ctx c : Context)
    (hc : s.WroteAt key ctx c) (j : StoreKey) (u : Bytes)
    (h : j ≠ s.key ∨ u ≠ s.space ++ [sep] ++ key) :
    (c.KVStore j).Get u = (ctx.KVStore j).Get u := by
  rcases hc with hc | ⟨bz, hc⟩
  · rw [hc]
  · rw [hc]
    by_cases hj : j = s.key
    · subst hj
      have hu : u ≠ s.space ++ [sep] ++ key := by
        rcases h with h | h
        · exact absurd rfl h
        · exact h
      simp only [Store.written, Context.KVStore_putTransientStore, Context.KVStore_putKVStore]
      exact KVStore.Get_Set_ne _ _ _ _ hu
    · simp [Store.written, Context.KVStore, Context.putKVStore, Context.putTransientStore, hj]

/-- A write at `key` leaves every transient read other than the one at the underlying
key `space ‖ '/' ‖ key` of the store `s.tkey` as it was. -/
theorem Store.WroteAt_transient (s : Store Ty Val) (key : Bytes) (ctx c : Context)
    (hc : s.WroteAt key ctx c) (j : StoreKey) (u : Bytes)
    (h : j ≠ s.tkey ∨ u ≠ s.space ++ [sep] ++ key) :
    (c.TransientStore j).Get u = (ctx.TransientStore j).Get u := by
  rcases hc with hc | ⟨bz, hc⟩
  · rw [hc]
  · rw [hc]
    by_cases hj : j = s.tkey
    · subst hj
      have hu : u ≠ s.space ++ [sep] ++ key := by
        rcases h with h | h
        · exact absurd rfl h
        · exact h
      simp only [Store.written, Context.TransientStore_putTransientStore]
      exact KVStore.Get_Set_ne _ _ _ _ hu
    · simp [Store.written, Context.TransientStore, Context.putKVStore,
        Context.putTransientStore, hj]

/-- A write leaves the durable stores mounted under other store keys as they were. -/
theorem Store.WroteAt_KVStore_ne (s : Store Ty Val) (key : Bytes) (ctx c : Context)
    (hc : s.WroteAt key ctx c) (j : StoreKey) (hj : j ≠ s.key) :
    c.KVStore j = ctx.KVStore j := by
  rcases hc with hc | ⟨bz, hc⟩
  · rw [hc]
  · rw [hc]
    simp [Store.written, Context.KVStore, Context.putKVStore, Context.putTransientStore, hj]

/-- A write leaves the transient stores mounted under other store keys as they were. -/
theorem Store.WroteAt_TransientStore_ne (s : Store Ty Val) (key : Bytes) (ctx c : Context)
    (hc : s.WroteAt key ctx c) (j : StoreKey) (hj : j ≠ s.tkey) :
    c.TransientStore j = ctx.TransientStore j := by
  rcases hc with hc | ⟨bz, hc⟩
  · rw [hc]
  · rw [hc]
    simp [Store.written, Context.TransientStore, Context.putKVStore,
      Context.putTransientStore, hj]

/-- The reads of the durable value of `key` depend on the context only through the
durable bytes at `space ‖ '/' ‖ key`. -/
theorem Store.reads_congr (s : Store Ty Val) (ctx c : Context) (key : Bytes)
    (h : (c.KVStore s.key).Get (s.space ++ [sep] ++ key)
      = (ctx.KVStore s.key).Get (s.space ++ [sep] ++ key)) :
    (∀ ptr, (s.Get c key ptr).toExcept = (s.Get ctx key ptr).toExcept) ∧
    (∀ ptr, (s.GetIfExists c key ptr).toExcept = (s.GetIfExists ctx key ptr).toExcept) ∧
    (s.GetRaw c key).toExcept = (s.GetRaw ctx key).toExcept ∧
    (s.Has c key).toExcept = (s.Has ctx key).toExcept := by
  have hg : (s.kvStore c).Get key = (s.kvStore ctx).Get key := by
    rw [Store.kvStore_Get, Store.kvStore_Get, h]
  have hh : (s.kvStore c).Has key = (s.kvStore ctx).Has key := by
    show ((s.kvStore c).Get key).isSome = ((s.kvStore ctx).Get key).isSome
    rw [hg]
  refine ⟨?_, ?_, ?_, ?_⟩
  · intro ptr
    simp only [Store.Get, hg]
    cases s.cdc.UnmarshalJSON ((s.kvStore ctx).Get key) (s.cdc.TypeOf ptr) <;> rfl
  · intro ptr
    simp only [Store.GetIfExists, hg]
    cases (s.kvStore ctx).Get key with
    | none => rfl
    | some b =>
      simp only []
      cases s.cdc.UnmarshalJSON (some b) (s.cdc.TypeOf ptr) <;> rfl
  · simp [Store.GetRaw, Result.toExcept, hg]
  · simp [Store.Has, Result.toExcept, hh]

/-- The result of `Modified(key)` depends on the context only through the transient bytes at
`space ‖ '/' ‖ key`. -/
theorem Store.Modified_congr (s : Store Ty Val) (ctx c : Context) (key : Bytes)
    (h : (c.TransientStore s.tkey).Get (s.space ++ [sep] ++ key)
      = (ctx.TransientStore s.tkey).Get (s.space ++ [sep] ++ key)) :
    (s.Modified c key).toExcept = (s.Modified ctx key).toExcept := by
  have hh : (s.transientStore c).Has key = (s.transientStore ctx).Has key := by
    show ((c.TransientStore s.tkey).Get (s.space ++ [sep] ++ key)).isSome
      = ((ctx.TransientStore s.tkey).Get (s.space ++ [sep] ++ key)).isSome
    rw [h]
  simp [Store.Modified, Result.toExcept, hh]

theorem ne_of_not_isPrefix (pfx key u : Bytes) (h : ¬ pfx <+: u) : u ≠ pfx ++ key := by
  intro hu
  exact h ⟨key, hu.symm⟩

/-- C18 (frame of a parameter write): a context `c` that `Set(k, v)` or `SetRaw(k, b)`
ends in differs from `ctx` at most at the underlying key `space ‖ '/' ‖ k` of the
durable store `s.key` and of the transient store `s.tkey`: every other read of every
durable and transient store is as before, so is every read at an underlying key that
does not start with `space ‖ '/'`, stores under other store keys are unchanged, and for
`k' ≠ k` the results of `GetRaw(k')`, `Has(k')` and `Modified(k')` are unchanged. -/
theorem write_frame (s : Store Ty Val) (ctx : Context) (k b : Bytes) (v : Val) (c : Context)
    (hc : c = (s.Set ctx k v).ctx ∨ c = (s.SetRaw ctx k b).ctx) :
    (∀ j u, j ≠ s.key ∨ u ≠ s.space ++ [sep] ++ k →
      (c.KVStore j).Get u = (ctx.KVStore j).Get u) ∧
    (∀ j u, j ≠ s.tkey ∨ u ≠ s.space ++ [sep] ++ k →
      (c.TransientStore j).Get u = (ctx.TransientStore j).Get u) ∧
    (∀ j u, ¬ (s.space ++ [sep]) <+: u →
      (c.KVStore j).Get u = (ctx.KVStore j).Get u ∧
      (c.TransientStore j).Get u = (ctx.TransientStore j).Get u) ∧
    (∀ j, j ≠ s.key → c.KVStore j = ctx.KVStore j) ∧
    (∀ j, j ≠ s.tkey → c.TransientStore j = ctx.TransientStore j) ∧
    (∀ k', k' ≠ k →
      (s.GetRaw c k').toExcept = (s.GetRaw ctx k').toExcept ∧
      (s.Has c k').toExcept = (s.Has ctx k').toExcept ∧
      (s.Modified c k').toExcept = (s.Modified ctx k').toExcept) := by
  have hw : s.WroteAt k ctx c := by
    rcases hc with hc | hc
    · rw [hc]
      exact Store.Set_WroteAt s ctx k v
    · rw [hc]
      exact Store.SetRaw_WroteAt s ctx k b
  refine ⟨Store.WroteAt_durable s k ctx c hw, Store.WroteAt_transient s k ctx c hw, ?_,
    Store.WroteAt_KVStore_ne s k ctx c hw, Store.WroteAt_TransientStore_ne s k ctx c hw, ?_⟩
  · intro j u hu
    have hne : u ≠ s.space ++ [sep] ++ k := ne_of_not_isPrefix _ k u hu
    exact ⟨Store.WroteAt_durable s k ctx c hw j u (Or.inr hne),
      Store.WroteAt_transient s k ctx c hw j u (Or.inr hne)⟩
  · intro k' hk
    have hne : s.space ++ [sep] ++ k' ≠ s.space ++ [sep] ++ k := by
      intro h
      exact hk (List.append_cancel_left h)
    have hd := Store.WroteAt_durable s k ctx c hw s.key _ (Or.inr hne)
    have ht := Store.WroteAt_transient s k ctx c hw s.tkey _ (Or.inr hne)
    obtain ⟨_, _, h3, h4⟩ := Store.reads_congr s ctx c k' hd
    exact ⟨h3, h4, Store.Modified_congr s ctx c k' ht⟩

/-- Namespaces without the separator byte are recovered from the underlying key: equal
underlying keys have equal namespaces. -/
theorem namespace_of_underlying_key : ∀ (s1 s2 k1 k2 : Bytes), sep ∉ s1 → sep ∉ s2 →
    s1 ++ [sep] ++ k1 = s2 ++ [sep] ++ k2 → s1 = s2
  | [], [], _, _, _, _, _ => rfl
  | [], d :: s2, _, _, _, h2, h => by
    simp only [List.nil_append, List.cons_append, List.singleton_append, List.cons.injEq] at h
    exact absurd (h.1 ▸ List.mem_cons_self _ _) h2
  | c :: s1, [], _, _, h1, _, h => by
    simp only [List.nil_append, List.cons_append, List.singleton_append, List.cons.injEq] at h
    exact absurd (h.1 ▸ List.mem_cons_self _ _) h1
  | c :: s1, d :: s2, k1, k2, h1, h2, h => by
    simp only [List.cons_append, List.cons.injEq] at h
    have ih := namespace_of_underlying_key s1 s2 k1 k2
      (fun hm => h1 (List.mem_cons_of_mem _ hm)) (fun hm => h2 (List.mem_cons_of_mem _ hm)) h.2
    rw [h.1, ih]

/-- C19 (namespace isolation): for two stores over the same store keys whose namespaces
differ and do not contain `'/'`, the underlying keys `s1 ‖ '/' ‖ k1` and
`s2 ‖ '/' ‖ k2` differ for all keys, and a `Set` or a `SetRaw` through the first store
leaves the results of `Get`, `GetRaw`, `Has` and `Modified` through the second as they
were. With `'/'` allowed in a namespace the keys can coincide: namespace `a` with key
`b/c` and namespace `a/b` with key `c` give the same underlying key, and a `SetRaw`
through the one is read by `GetRaw` through the other. -/
theorem namespace_isolation (cdc1 cdc2 : Codec Ty Val) (key tkey : StoreKey) (s1 s2 : Bytes)
    (hne : s1 ≠ s2) (h1 : sep ∉ s1) (h2 : sep ∉ s2) :
    (∀ k1 k2, s1 ++ [sep] ++ k1 ≠ s2 ++ [sep] ++ k2) ∧
    (∀ (ctx c : Context) (k1 b : Bytes) (v : Val),
      (c = ((NewStore cdc1 key tkey s1).Set ctx k1 v).ctx ∨
        c = ((NewStore cdc1 key tkey s1).SetRaw ctx k1 b).ctx) →
      ∀ k2,
        (∀ ptr, ((NewStore cdc2 key tkey s2).Get c k2 ptr).toExcept
          = ((NewStore cdc2 key tkey s2).Get ctx k2 ptr).toExcept) ∧
        ((NewStore cdc2 key tkey s2).GetRaw c k2).toExcept
          = ((NewStore cdc2 key tkey s2).GetRaw ctx k2).toExcept ∧
        ((NewStore cdc2 key tkey s2).Has c k2).toExcept
          = ((NewStore cdc2 key tkey s2).Has ctx k2).toExcept ∧
        ((NewStore cdc2 key tkey s2).Modified c k2).toExcept
          = ((NewStore cdc2 key tkey s2).Modified ctx k2).toExcept) ∧
    (([97] : Bytes) ++ [sep] ++ [98, 47, 99] = [97, 47, 98] ++ [sep] ++ [99] ∧
      ((NewStore cdc2 key tkey [97, 47, 98]).GetRaw
        ((NewStore cdc1 key tkey [97]).SetRaw emptyCtx [98, 47, 99] [1]).ctx [99]).toExcept
        = .ok (some [1])) := by
  have hkeys : ∀ k1 k2, s1 ++ [sep] ++ k1 ≠ s2 ++ [sep] ++ k2 := fun k1 k2 h =>
    hne (namespace_of_underlying_key s1 s2 k1 k2 h1 h2 h)
  refine ⟨hkeys, ?_, rfl, ?_⟩
  · intro ctx c k1 b v hc k2
    have hw : (NewStore cdc1 key tkey s1).WroteAt k1 ctx c := by
      rcases hc with hc | hc
      · rw [hc]
        exact Store.Set_WroteAt _ ctx k1 v
      · rw [hc]
        exact Store.SetRaw_WroteAt _ ctx k1 b
    have hd := Store.WroteAt_durable _ k1 ctx c hw key (s2 ++ [sep] ++ k2)
      (Or.inr (fun h => hkeys k1 k2 h.symm))
    have ht := Store.WroteAt_transient _ k1 ctx c hw tkey (s2 ++ [sep] ++ k2)
      (Or.inr (fun h => hkeys k1 k2 h.symm))
    obtain ⟨g1, _, g3, g4⟩ := Store.reads_congr (NewStore cdc2 key tkey s2) ctx c k2 hd
    exact ⟨g1, g3, g4, Store.Modified_congr (NewStore cdc2 key tkey s2) ctx c k2 ht⟩
  · have hget := Store.kvStore_Get_written (NewStore cdc1 key tkey [97]) emptyCtx
      [98, 47, 99] [1]
    simp only [Store.GetRaw, Result.toExcept, Store.SetRaw_eq, Result.ctx]
    rw [Store.kvStore_Get] at hget ⊢
    exact congrArg Except.ok hget

/-- A write keeps the invariant that a flagged underlying key is present in the durable
store. -/
theorem Store.WroteAt_flag_present (s : Store Ty Val) (key : Bytes) (ctx c : Context)
    (hc : s.WroteAt key ctx c)
    (hinv : ∀ u, (ctx.TransientStore s.tkey).Has u = true → (ctx.KVStore s.key).Has u = true) :
    ∀ u, (c.TransientStore s.tkey).Has u = true → (c.KVStore s.key).Has u = true := by
  intro u hu
  by_cases hk : u = s.space ++ [sep] ++ key
  · rcases hc with hc | ⟨bz, hc⟩
    · rw [hc] at hu ⊢
      exact hinv u hu
    · rw [hc, hk]
      simp [Store.written]
  · have hd := Store.WroteAt_durable s key ctx c hc s.key u (Or.inr hk)
    have ht := Store.WroteAt_transient s key ctx c hc s.tkey u (Or.inr hk)
    simp only [KVStore.Has, hd, ht] at hu ⊢
    exact hinv u hu

theorem Store.SetStruct_flag_present (s : Store Ty Val) (pairs : List (Bytes × Val)) :
    ∀ ctx : Context,
    (∀ u, (ctx.TransientStore s.tkey).Has u = true → (ctx.KVStore s.key).Has u = true) →
    ∀ u, ((s.SetStruct ctx pairs).ctx.TransientStore s.tkey).Has u = true →
      ((s.SetStruct ctx pairs).ctx.KVStore s.key).Has u = true := by
  induction pairs with
  | nil =>
    intro ctx hinv
    exact hinv
  | cons p rest ih =>
    obtain ⟨key, v⟩ := p
    intro ctx hinv
    have hstep := Store.WroteAt_flag_present s key ctx _ (Store.Set_WroteAt s ctx key v) hinv
    simp only [Store.SetStruct]
    cases hset : s.Set ctx key v with
    | panic err c =>
      rw [hset] at hstep
      exact hstep
    | ok u c =>
      rw [hset] at hstep
      exact ih c hstep

theorem Store.runWrites_flag_present (s : Store Ty Val) (calls : List (WriteCall Val)) :
    ∀ ctx : Context,
    (∀ u, (ctx.TransientStore s.tkey).Has u = true → (ctx.KVStore s.key).Has u = true) →
    ∀ u, ((s.runWrites ctx calls).TransientStore s.tkey).Has u = true →
      ((s.runWrites ctx calls).KVStore s.key).Has u = true := by
  induction calls with
  | nil =>
    intro ctx hinv
    exact hinv
  | cons call rest ih =>
    intro ctx hinv
    apply ih
    cases call with
    | Set key param =>
      exact Store.WroteAt_flag_present s key ctx _ (Store.Set_WroteAt s ctx key param) hinv
    | SetRaw key param =>
      exact Store.WroteAt_flag_present s key ctx _ (Store.SetRaw_WroteAt s ctx key param) hinv
    | SetStruct pairs => exact Store.SetStruct_flag_present s pairs ctx hinv

/-- C20 (Modified implies present): in the context reached from one with an empty
transient store, whatever its durable store holds, by any sequence of `Set`, `SetRaw`
and `SetStruct` calls on one store, failed calls included, every key with
`Modified(k) = true` has `Has(k) = true`. -/
theorem modified_implies_present (s : Store Ty Val) (ctx : Context)
    (calls : List (WriteCall Val)) (hfresh : ctx.TransientStore s.tkey = KVStore.empty)
    (k : Bytes) (hmod : (s.Modified (s.runWrites ctx calls) k).value? = some true) :
    (s.Has (s.runWrites ctx calls) k).value? = some true := by
  have hinv : ∀ u, (ctx.TransientStore s.tkey).Has u = true →
      (ctx.KVStore s.key).Has u = true := by
    intro u hu
    rw [hfresh] at hu
    simp at hu
  have h := Store.runWrites_flag_present s calls ctx hinv (s.space ++ [sep] ++ k)
  simp only [Store.Modified, Store.Has, Result.value?, Option.some.injEq] at hmod ⊢
  exact h hmod

end FrameTheorems

/-! ## Singletons, slash fractions by height, and the upper bound of the range -/

section AccessorTheorems

variable {SlashFraction FeePool : Type}

/-- Slash-fraction keys of one validator at different uint64 heights are different. -/
theorem slashKey_height_injective (tags : KeyTags) (val : Bytes) (h h' : Nat)
    (hh : h < 2 ^ 64) (hh' : h' < 2 ^ 64)
    (hkey : GetValidatorSlashFractionKey tags val h = GetValidatorSlashFractionKey tags val h') :
    h = h' := by
  simp only [GetValidatorSlashFractionKey, List.cons.injEq, true_and] at hkey
  have hbe := List.append_cancel_left hkey
  have hv := congrArg beValue hbe
  rw [two_pow_64] at hh hh'
  simp only [putUint64, beValue_beBytes, Nat.mod_eq_of_lt hh, Nat.mod_eq_of_lt hh'] at hv
  exact hv

/-- C12 (found/not-found contract): `GetValidatorSlashFraction(val, h)` returns the zero
value and `false`, without failing, when nothing is stored at `(val, h)`; after
`setValidatorSlashFraction(val, h, f)` it returns `(f, true)`, for a codec that encodes
`f` and decodes the encoding as `f`; and for uint64 heights `h' ≠ h` the write at
`(val, h)` leaves the result at `(val, h')` as it was, so a height not found before is
not found after. -/
theorem slash_fraction_found_contract [Inhabited SlashFraction] (k : Keeper SlashFraction)
    (ctx : Context) (val : Bytes) (h : Nat) (f : SlashFraction) :
    ((ctx.KVStore k.storeKey).Get (GetValidatorSlashFractionKey k.tags val h) = none →
      k.GetValidatorSlashFraction ctx val h = .ok (default, false) ctx) ∧
    (∀ b, k.cdc.MustMarshalBinaryLengthPrefixed f = .ok b →
      k.cdc.MustUnmarshalBinaryLengthPrefixed (some b) = .ok f →
      (k.setValidatorSlashFraction ctx val h f).isOk = true ∧
      k.GetValidatorSlashFraction (k.setValidatorSlashFraction ctx val h f).ctx val h
        = .ok (f, true) (k.setValidatorSlashFraction ctx val h f).ctx) ∧
    (∀ h', h < 2 ^ 64 → h' < 2 ^ 64 → h' ≠ h →
      (k.GetValidatorSlashFraction (k.setValidatorSlashFraction ctx val h f).ctx val h').toExcept
        = (k.GetValidatorSlashFraction ctx val h').toExcept) := by
  refine ⟨?_, ?_, ?_⟩
  · intro hb
    simp [Keeper.GetValidatorSlashFraction, hb]
  · intro b henc hdec
    simp [Keeper.setValidatorSlashFraction, Keeper.GetValidatorSlashFraction, henc, hdec,
      Result.ctx, Result.isOk]
  · intro h' hh hh' hne
    have hkey : GetValidatorSlashFractionKey k.tags val h'
        ≠ GetValidatorSlashFractionKey k.tags val h :=
      fun hk => hne (slashKey_height_injective k.tags val h' h hh' hh hk)
    cases henc : k.cdc.MustMarshalBinaryLengthPrefixed f with
    | error err => simp [Keeper.setValidatorSlashFraction, henc, Result.ctx]
    | ok b =>
      simp only [Keeper.setValidatorSlashFraction, henc, Result.ctx,
        Keeper.GetValidatorSlashFraction, Context.KVStore_putKVStore,
        KVStore.Get_Set_ne _ _ _ _ hkey]
      cases (ctx.KVStore k.storeKey).Get (GetValidatorSlashFractionKey k.tags val h') with
      | none => rfl
      | some b' =>
        simp only []
        cases k.cdc.MustUnmarshalBinaryLengthPrefixed (some b') <;> rfl

/-- C13 (must-exist singletons): `GetFeePool` and `GetPreviousProposerConsAddr` panic
when nothing is stored under their key; after `SetFeePool(x)`, respectively
`SetPreviousProposerConsAddr(a)`, from any context, the getter succeeds and returns the
value set, for a codec that encodes the value and decodes the encoding as the value. -/
theorem singletons_must_exist (k : Keeper SlashFraction) (sg : Singletons FeePool)
    (ctx : Context) (x : FeePool) (a : Bytes) :
    ((ctx.KVStore k.storeKey).Get sg.FeePoolKey = none →
      k.GetFeePool sg ctx = .panic feePoolNil ctx) ∧
    (∀ b, sg.cdcFeePool.MustMarshalBinaryLengthPrefixed x = .ok b →
      sg.cdcFeePool.MustUnmarshalBinaryLengthPrefixed (some b) = .ok x →
      (k.SetFeePool sg ctx x).isOk = true ∧
      k.GetFeePool sg (k.SetFeePool sg ctx x).ctx = .ok x (k.SetFeePool sg ctx x).ctx) ∧
    ((ctx.KVStore k.storeKey).Get sg.ProposerKey = none →
      k.GetPreviousProposerConsAddr sg ctx = .panic proposerNotSet ctx) ∧
    (∀ b, sg.cdcConsAddr.MustMarshalBinaryLengthPrefixed a = .ok b →
      sg.cdcConsAddr.MustUnmarshalBinaryLengthPrefixed (some b) = .ok a →
      (k.SetPreviousProposerConsAddr sg ctx a).isOk = true ∧
      k.GetPreviousProposerConsAddr sg (k.SetPreviousProposerConsAddr sg ctx a).ctx
        = .ok a (k.SetPreviousProposerConsAddr sg ctx a).ctx) := by
  refine ⟨?_, ?_, ?_, ?_⟩
  · intro hb
    simp [Keeper.GetFeePool, hb]
  · intro b henc hdec
    simp [Keeper.SetFeePool, Keeper.GetFeePool, henc, hdec, Result.ctx, Result.isOk]
  · intro hb
    simp [Keeper.GetPreviousProposerConsAddr, hb]
  · intro b henc hdec
    simp [Keeper.SetPreviousProposerConsAddr, Keeper.GetPreviousProposerConsAddr, henc, hdec,
      Result.ctx, Result.isOk]

/-- No slash-fraction key of `val` is below the key of `val` at height 0. -/
theorem slashKey_not_lt_zero (tags : KeyTags) (val : Bytes) (s : Nat) :
    bytesLt (GetValidatorSlashFractionKey tags val s) (GetValidatorSlashFractionKey tags val 0)
      = false := by
  have hs : s % 256 ^ 8 < 256 ^ 8 := Nat.mod_lt _ (by positivity)
  have h0 : 0 < 256 ^ 8 := by positivity
  have hbe := bytesLt_beBytes 8 (s % 256 ^ 8) 0 hs h0
  rw [beBytes_mod] at hbe
  simp only [GetValidatorSlashFractionKey, bytesLt_cons, bytesLt_append_left, putUint64, hbe]
  simp

/-- The range from the key of `val` at any height up to the key of `val` at height 0
holds no entry. -/
theorem Iterator_to_zero_eq_nil (tags : KeyTags) (st : KVStore) (val : Bytes) (s : Nat) :
    st.Iterator (GetValidatorSlashFractionKey tags val s)
      (GetValidatorSlashFractionKey tags val 0) = [] := by
  simp only [KVStore.Iterator, List.filter_eq_nil_iff, Bool.and_eq_true, Bool.not_eq_true',
    not_and, Bool.not_eq_true]
  intro e _ hlo
  cases hhi : bytesLt e.1 (GetValidatorSlashFractionKey tags val 0) with
  | false => rfl
  | true =>
    have hzero := slashKey_not_lt_zero tags val s
    rcases bytesLt_total (GetValidatorSlashFractionKey tags val 0)
      (GetValidatorSlashFractionKey tags val s) with h | h | h
    · rw [bytesLt_trans _ _ _ hhi h] at hlo
      cases hlo
    · rw [← h, hhi] at hlo
      cases hlo
    · rw [hzero] at h
      cases h

/-- C16 (height overflow at the upper bound): with `endingHeight = 2^64 - 1` the upper
key is built from the wrapped height 0, the range from the key of any starting height
to it holds no entry of any store, and the call returns normally without invoking the
handler; for every `endingHeight < 2^64 - 1` the upper key is the key of
`endingHeight + 1`. -/
theorem iterate_upper_bound_wraps {σ : Type} (k : Keeper SlashFraction) (ctx : Context)
    (val : Bytes) (s : Nat) (handler : σ → Nat → SlashFraction → σ × Bool) (init : σ) :
    k.IterateValidatorSlashFractions ctx val s (2 ^ 64 - 1) handler init
      = k.iterateLoop ctx handler
          ((ctx.KVStore k.storeKey).Iterator (GetValidatorSlashFractionKey k.tags val s)
            (GetValidatorSlashFractionKey k.tags val 0)) init ∧
    (ctx.KVStore k.storeKey).Iterator (GetValidatorSlashFractionKey k.tags val s)
      (GetValidatorSlashFractionKey k.tags val 0) = [] ∧
    k.IterateValidatorSlashFractions ctx val s (2 ^ 64 - 1) handler init
      = (init, .ok () ctx) ∧
    (∀ e, e < 2 ^ 64 - 1 →
      k.IterateValidatorSlashFractions ctx val s e handler init
        = k.iterateLoop ctx handler
            ((ctx.KVStore k.storeKey).Iterator (GetValidatorSlashFractionKey k.tags val s)
              (GetValidatorSlashFractionKey k.tags val (e + 1))) init) := by
  have hwrap : (2 ^ 64 - 1 + 1) % 2 ^ 64 = 0 := by norm_num
  have hrun : k.IterateValidatorSlashFractions ctx val s (2 ^ 64 - 1) handler init
      = k.iterateLoop ctx handler
          ((ctx.KVStore k.storeKey).Iterator (GetValidatorSlashFractionKey k.tags val s)
            (GetValidatorSlashFractionKey k.tags val 0)) init := by
    simp only [Keeper.IterateValidatorSlashFractions, hwrap]
  have hnil := Iterator_to_zero_eq_nil k.tags (ctx.KVStore k.storeKey) val s
  refine ⟨hrun, hnil, ?_, ?_⟩
  · rw [hrun, hnil]
    rfl
  · intro e he
    have hmod : (e + 1) % 2 ^ 64 = e + 1 := Nat.mod_eq_of_lt (by omega)
    simp only [Keeper.IterateValidatorSlashFractions, hmod]

end AccessorTheorems

/-! ## Early stop of the range iteration -/

section EarlyStopTheorems

variable {SlashFraction : Type}

/-- With values that all decode, the loop invokes the handler on the entries one after
the other, up to and including the first one the handler stops at, and returns
normally. -/
theorem Keeper.iterateLoop_early_stop {σ : Type} (k : Keeper SlashFraction) (ctx : Context)
    (handler : σ → Nat → SlashFraction → σ × Bool) (L : List (Bytes × Bytes))
    (hdec : ∀ e ∈ L, ∃ f, k.cdc.MustUnmarshalBinaryLengthPrefixed (some e.2) = .ok f)
    (init : σ) :
    k.iterateLoop ctx handler L init
      = (visitUntilStop handler (L.filterMap k.decodeEntry) init, .ok () ctx) := by
  induction L generalizing init with
  | nil => rfl
  | cons e rest ih =>
    obtain ⟨key, value⟩ := e
    obtain ⟨f, hf⟩ := hdec (key, value) (List.mem_cons_self _ _)
    have hrest : ∀ e ∈ rest, ∃ f, k.cdc.MustUnmarshalBinaryLengthPrefixed (some e.2) = .ok f :=
      fun e he => hdec e (List.mem_cons_of_mem _ he)
    have hd : k.decodeEntry (key, value)
        = some (GetValidatorSlashFractionHeight k.tags key, f) := by
      simp [Keeper.decodeEntry, hf]
    simp only [Keeper.iterateLoop, hf, List.filterMap_cons, hd, visitUntilStop]
    split_ifs with hstop
    · rfl
    · exact ih hrest _

theorem foldl_recordAll (l init : List (Nat × SlashFraction)) :
    l.foldl (fun a t => (recordAll a t.1 t.2).1) init = init ++ l := by
  induction l generalizing init with
  | nil => simp
  | cons t l ih =>
    rw [List.foldl_cons, ih]
    simp [recordAll]

/-- Early stop below the largest height: under the hypotheses of the range theorem there
is a list `visited`, holding exactly the decoded slash-fraction records of `val` at the
heights `h` with `startingHeight ≤ h ≤ endingHeight` in strictly ascending order of
height, such that every handler is invoked on the elements of `visited` in that order
up to and including the first one it stops at, and on none after it. -/
theorem Keeper.IterateValidatorSlashFractions_early_stop (k : Keeper SlashFraction)
    (ctx : Context) (val : Bytes) (s e : Nat)
    (hval : val.length = k.tags.AddrLen) (hs : s < 2 ^ 64) (he : e + 1 < 2 ^ 64)
    (hwf : (ctx.KVStore k.storeKey).WF)
    (hkeys : SlashKeysWF k.tags (ctx.KVStore k.storeKey))
    (hdec : ∀ en ∈ (ctx.KVStore k.storeKey).entries,
      en.1.head? = some k.tags.ValidatorSlashFractionPrefix →
      ∃ f, k.cdc.MustUnmarshalBinaryLengthPrefixed (some en.2) = .ok f) :
    ∃ visited : List (Nat × SlashFraction),
      (∀ (σ : Type) (handler : σ → Nat → SlashFraction → σ × Bool) (init : σ),
        k.IterateValidatorSlashFractions ctx val s e handler init
          = (visitUntilStop handler visited init, .ok () ctx)) ∧
      (visited.map Prod.fst).Pairwise (fun a b => a < b) ∧
      ∀ h f, (h, f) ∈ visited ↔
        (s ≤ h ∧ h ≤ e ∧ ∃ value,
          (ctx.KVStore k.storeKey).Get (GetValidatorSlashFractionKey k.tags val h)
            = some value ∧
          k.cdc.MustUnmarshalBinaryLengthPrefixed (some value) = .ok f) := by
  obtain ⟨visited, hrun, hasc, hmem⟩ :=
    Keeper.IterateValidatorSlashFractions_inclusive k ctx val s e hval hs he hwf hkeys hdec
  have hmod : (e + 1) % 2 ^ 64 = e + 1 := Nat.mod_eq_of_lt he
  have hrange := mem_slash_range k.tags (ctx.KVStore k.storeKey) val s e hval hs he hkeys
  have hdecL : ∀ en ∈ (ctx.KVStore k.storeKey).Iterator
      (GetValidatorSlashFractionKey k.tags val s)
      (GetValidatorSlashFractionKey k.tags val (e + 1)),
      ∃ f, k.cdc.MustUnmarshalBinaryLengthPrefixed (some en.2) = .ok f := by
    intro en hen
    obtain ⟨hm, hhead, _⟩ := hrange en hen
    exact hdec en hm hhead
  have hgen : ∀ (σ : Type) (handler : σ → Nat → SlashFraction → σ × Bool) (init : σ),
      k.IterateValidatorSlashFractions ctx val s e handler init
        = (visitUntilStop handler
            (((ctx.KVStore k.storeKey).Iterator (GetValidatorSlashFractionKey k.tags val s)
              (GetValidatorSlashFractionKey k.tags val (e + 1))).filterMap k.decodeEntry) init,
            .ok () ctx) := by
    intro σ handler init
    simp only [Keeper.IterateValidatorSlashFractions, hmod]
    exact Keeper.iterateLoop_early_stop k ctx handler _ hdecL init
  have hlist : visited = ((ctx.KVStore k.storeKey).Iterator
      (GetValidatorSlashFractionKey k.tags val s)
      (GetValidatorSlashFractionKey k.tags val (e + 1))).filterMap k.decodeEntry := by
    have h1 := hrun _ recordAll [] (fun _ _ _ => rfl)
    have h2 : k.IterateValidatorSlashFractions ctx val s e recordAll []
        = ((((ctx.KVStore k.storeKey).Iterator (GetValidatorSlashFractionKey k.tags val s)
            (GetValidatorSlashFractionKey k.tags val (e + 1))).filterMap
              k.decodeEntry).foldl (fun a t => (recordAll a t.1 t.2).1) [], .ok () ctx) := by
      simp only [Keeper.IterateValidatorSlashFractions, hmod]
      exact Keeper.iterateLoop_never_stop k ctx recordAll (fun _ _ _ => rfl) _ hdecL []
    rw [h1, foldl_recordAll, foldl_recordAll] at h2
    simpa using congrArg Prod.fst h2
  refine ⟨visited, ?_, hasc, hmem⟩
  intro σ handler init
  rw [hlist]
  exact hgen σ handler init

end EarlyStopTheorems

/-- C11 (early stop in range iteration), with the claim's example and at the upper end
of the height type: over the heights 5, 7, 10 a handler that stops at 7 is invoked on 5
and 7 and not on 10. With slash fractions at 5, 7 and `2^64 - 1` and the range
`(0, 2^64 - 1)`, which holds all three, the handler that stops at 7 and the handler that
never stops are invoked on no record; with the ending height `2^64 - 2` they are invoked
on 5, 7, respectively on 5 and 7. -/
theorem iterate_early_stop_misses_at_max_ending_height :
    (demoKeeper.IterateValidatorSlashFractions (slashCtx [5, 7, 10]) demoVal 5 10
      (recordUntil 7) []).1 = [(5, 1), (7, 1)] ∧
    (demoKeeper.IterateValidatorSlashFractions (slashCtx [5, 7, maxUint64]) demoVal 0
      maxUint64 (recordUntil 7) []).1 = [] ∧
    (demoKeeper.IterateValidatorSlashFractions (slashCtx [5, 7, maxUint64]) demoVal 0
      maxUint64 recordAll []).1 = [] ∧
    (demoKeeper.IterateValidatorSlashFractions (slashCtx [5, 7, maxUint64]) demoVal 0
      (maxUint64 - 1) (recordUntil 7) []).1 = [(5, 1), (7, 1)] ∧
    (demoKeeper.IterateValidatorSlashFractions (slashCtx [5, 7, maxUint64]) demoVal 0
      (maxUint64 - 1) recordAll []).1 = [(5, 1), (7, 1)] ∧
    ((slashCtx [5, 7, maxUint64]).KVStore demoKeeper.storeKey).Get
      (GetValidatorSlashFractionKey demoKeeper.tags demoVal 5) = some [1] ∧
    ((slashCtx [5, 7, maxUint64]).KVStore demoKeeper.storeKey).Get
      (GetValidatorSlashFractionKey demoKeeper.tags demoVal 7) = some [1] := by
  refine ⟨?_, ?_, ?_, ?_, ?_, ?_, ?_⟩ <;> decide

/-! ## The later theorems at the demonstration store and keeper -/

/-- The found/not-found contract at the demonstration keeper, heights 5 and 7. -/
theorem slash_fraction_found_contract_witness :
    (emptyCtx.KVStore demoKeeper.storeKey).Get
      (GetValidatorSlashFractionKey demoKeeper.tags demoVal 5) = none ∧
    demoKeeper.GetValidatorSlashFraction emptyCtx demoVal 5 = .ok (default, false) emptyCtx ∧
    (demoKeeper.setValidatorSlashFraction emptyCtx demoVal 5 1).isOk = true ∧
    demoKeeper.GetValidatorSlashFraction
        (demoKeeper.setValidatorSlashFraction emptyCtx demoVal 5 1).ctx demoVal 5
      = .ok (1, true) (demoKeeper.setValidatorSlashFraction emptyCtx demoVal 5 1).ctx ∧
    (demoKeeper.GetValidatorSlashFraction
        (demoKeeper.setValidatorSlashFraction emptyCtx demoVal 5 1).ctx demoVal 7).toExcept
      = (demoKeeper.GetValidatorSlashFraction emptyCtx demoVal 7).toExcept :=
  ⟨by decide,
   (slash_fraction_found_contract demoKeeper emptyCtx demoVal 5 1).1 (by decide),
   ((slash_fraction_found_contract demoKeeper emptyCtx demoVal 5 1).2.1 [1] rfl rfl).1,
   ((slash_fraction_found_contract demoKeeper emptyCtx demoVal 5 1).2.1 [1] rfl rfl).2,
   (slash_fraction_found_contract demoKeeper emptyCtx demoVal 5 1).2.2 7
     (by norm_num) (by norm_num) (by decide)⟩

/-- The two singletons at the demonstration keeper. -/
theorem singletons_must_exist_witness :
    (emptyCtx.KVStore demoKeeper.storeKey).Get demoSingletons.FeePoolKey = none ∧
    demoKeeper.GetFeePool demoSingletons emptyCtx = .panic feePoolNil emptyCtx ∧
    demoKeeper.GetFeePool demoSingletons (demoKeeper.SetFeePool demoSingletons emptyCtx 9).ctx
      = .ok 9 (demoKeeper.SetFeePool demoSingletons emptyCtx 9).ctx ∧
    (emptyCtx.KVStore demoKeeper.storeKey).Get demoSingletons.ProposerKey = none ∧
    demoKeeper.GetPreviousProposerConsAddr demoSingletons emptyCtx
      = .panic proposerNotSet emptyCtx ∧
    demoKeeper.GetPreviousProposerConsAddr demoSingletons
        (demoKeeper.SetPreviousProposerConsAddr demoSingletons emptyCtx [4, 4]).ctx
      = .ok [4, 4] (demoKeeper.SetPreviousProposerConsAddr demoSingletons emptyCtx [4, 4]).ctx :=
  ⟨by decide,
   (singletons_must_exist demoKeeper demoSingletons emptyCtx 9 [4, 4]).1 (by decide),
   ((singletons_must_exist demoKeeper demoSingletons emptyCtx 9 [4, 4]).2.1 [9] rfl rfl).2,
   by decide,
   (singletons_must_exist demoKeeper demoSingletons emptyCtx 9 [4, 4]).2.2.1 (by decide),
   ((singletons_must_exist demoKeeper demoSingletons emptyCtx 9 [4, 4]).2.2.2
     [2, 4, 4] rfl rfl).2⟩

/-- A batch whose second pair is refused: the first pair stays written. -/
theorem setStruct_no_rollback_witness :
    (demoStore.SetStruct seededCtx [([97], .digit 4)]).isOk = true ∧
    (demoStore.Set (demoStore.SetStruct seededCtx [([97], .digit 4)]).ctx demoKey
      (.flag true)).isOk = false ∧
    (demoStore.SetStruct seededCtx
      ([([97], .digit 4)] ++ (demoKey, .flag true) :: [([98], .flag true)])).isOk = false ∧
    (demoStore.SetStruct seededCtx
      ([([97], .digit 4)] ++ (demoKey, .flag true) :: [([98], .flag true)])).ctx
      = (demoStore.SetStruct seededCtx [([97], .digit 4)]).ctx ∧
    (demoStore.GetRaw (demoStore.SetStruct seededCtx
      ([([97], .digit 4)] ++ (demoKey, .flag true) :: [([98], .flag true)])).ctx [97]).value?
      = some (some [52]) :=
  ⟨by decide, by decide,
   ((setStruct_no_rollback demoStore seededCtx demoPairs [([97], .digit 4)]
     [([98], .flag true)] demoKey (.flag true)).2 (by decide) (by decide)).2.1,
   ((setStruct_no_rollback demoStore seededCtx demoPairs [([97], .digit 4)]
     [([98], .flag true)] demoKey (.flag true)).2 (by decide) (by decide)).2.2,
   by decide⟩

/-- A batch load of the two demonstration parameters, and one that stops at an absent
key with the first field hydrated. -/
theorem getStruct_hydrates_in_order_witness :
    (∀ ty, ∃ err, demoStore.cdc.UnmarshalJSON none ty = .error err) ∧
    (demoStore.GetStruct loadedCtx demoFields).2.isOk = true ∧
    (demoStore.GetStruct loadedCtx demoFields).2 = .ok () loadedCtx ∧
    (demoStore.GetStruct loadedCtx demoFields).1 = demoPairs ∧
    (demoStore.GetStruct loadedCtx [([97], .digit 0)]).2.isOk = true ∧
    demoStore.Get loadedCtx [99] (.digit 0) = .panic "cannot decode empty bytes" loadedCtx ∧
    demoStore.GetStruct loadedCtx
        ([([97], .digit 0)] ++ ([99], .digit 0) :: [([98], .flag false)])
      = ((demoStore.GetStruct loadedCtx [([97], .digit 0)]).1
          ++ ([99], .digit 0) :: [([98], .flag false)],
         .panic "cannot decode empty bytes" loadedCtx) :=
  ⟨fun _ => ⟨_, rfl⟩, by decide,
   ((getStruct_hydrates_in_order demoStore loadedCtx demoFields [([97], .digit 0)]
     [([98], .flag false)] [99] (.digit 0)).2.1 (by decide)).1,
   by decide, by decide, rfl,
   (getStruct_hydrates_in_order demoStore loadedCtx demoFields [([97], .digit 0)]
     [([98], .flag false)] [99] (.digit 0)).2.2 _ (by decide) rfl⟩

/-- The upper key below the largest height, at the demonstration keeper. -/
theorem iterate_upper_bound_wraps_witness :
    10 < 2 ^ 64 - 1 ∧
    demoKeeper.IterateValidatorSlashFractions (slashCtx [5, 7, 10]) demoVal 5 10 recordAll []
      = demoKeeper.iterateLoop (slashCtx [5, 7, 10]) recordAll
          (((slashCtx [5, 7, 10]).KVStore demoKeeper.storeKey).Iterator
            (GetValidatorSlashFractionKey demoKeeper.tags demoVal 5)
            (GetValidatorSlashFractionKey demoKeeper.tags demoVal (10 + 1))) [] :=
  ⟨by norm_num,
   (iterate_upper_bound_wraps demoKeeper (slashCtx [5, 7, 10]) demoVal 5 recordAll []).2.2.2
     10 (by norm_num)⟩

/-- A refused flag at a key holding a digit leaves the context as it was. -/
theorem set_failure_keeps_state_witness :
    (demoStore.Set seededCtx demoKey (.flag true)).isOk = false ∧
    (demoStore.Set seededCtx demoKey (.flag true)).ctx = seededCtx :=
  ⟨by decide, (set_failure_keeps_state demoStore seededCtx demoKey (.flag true) (by decide)).1⟩

/-- The frame of a `Set` at the demonstration store: another key reads as before. -/
theorem write_frame_witness :
    ((demoStore.Set loadedCtx demoKey (.digit 3)).ctx
        = (demoStore.Set loadedCtx demoKey (.digit 3)).ctx ∨
      (demoStore.Set loadedCtx demoKey (.digit 3)).ctx
        = (demoStore.SetRaw loadedCtx demoKey []).ctx) ∧
    (demoStore.GetRaw (demoStore.Set loadedCtx demoKey (.digit 3)).ctx [97]).toExcept
      = (demoStore.GetRaw loadedCtx [97]).toExcept :=
  ⟨Or.inl rfl,
   ((write_frame demoStore loadedCtx demoKey [] (.digit 3)
     (demoStore.Set loadedCtx demoKey (.digit 3)).ctx (Or.inl rfl)).2.2.2.2.2 [97]
     (by decide)).1⟩

/-- Isolation of the namespaces `gov` and `go`, one a prefix of the other. -/
theorem namespace_isolation_witness :
    ([103, 111, 118] : Bytes) ≠ [103, 111] ∧ sep ∉ ([103, 111, 118] : Bytes) ∧
    sep ∉ ([103, 111] : Bytes) ∧
    (∀ k1 k2 : Bytes, [103, 111, 118] ++ [sep] ++ k1 ≠ [103, 111] ++ [sep] ++ k2) :=
  ⟨by decide, by decide, by decide,
   (namespace_isolation demoCodec demoCodec 0 1 [103, 111, 118] [103, 111]
     (by decide) (by decide) (by decide)).1⟩

/-- After the demonstration writes, one of them failed, the flagged key is present. -/
theorem modified_implies_present_witness :
    emptyCtx.TransientStore demoStore.tkey = KVStore.empty ∧
    (demoStore.Modified (demoStore.runWrites emptyCtx demoWrites) demoKey).value? = some true ∧
    (demoStore.Has (demoStore.runWrites emptyCtx demoWrites) demoKey).value? = some true :=
  ⟨rfl, by decide,
   modified_implies_present demoStore emptyCtx demoWrites rfl demoKey (by decide)⟩

end CosmosStore
